import Mathlib

/-!
Shallow embedding of the fastintmap repository (a lock-free integer-keyed
hash map): `hashmap.go`, `hashmap_get.go` and the callers of the
`sortedlist` package.  The embedding gives the sequential (single-threaded)
semantics of the code: every atomic compare-and-swap succeeds, and a resize
started with `go m.grow(...)` runs synchronously to completion before the
operation returns.  Machine integers (`uintptr`) are modelled as `Nat`
with the bound `k < 2 ^ W` stated where the code relies on the word width.
A nil-pointer dereference (a Go runtime panic) is modelled by `Option`
with `none` for the panic.

The `sortedlist` package itself is not part of the available sources (only
its test file and its callers are), so its operations are modelled from the
spec, section 4.1; each such definition carries a doc comment saying so.
-/

namespace FastIntMap

/-- Width of a machine word, `strconv.IntSize` on a 64-bit platform. -/
def W : Nat := 64

/-- DefaultSize is the default size for a zero allocated map (hashmap.go). -/
def DefaultSize : Nat := 8

/-- MaxFillRate is the maximum fill rate before a resize happens (hashmap.go). -/
def MaxFillRate : Nat := 50

/-- Modelled from the spec: the utility `log2` lives in a source file that is
not under src/.  The glossary defines shift as `W - log2(bucket-count)`; the
function counts how many doublings of `p = 1` are needed to reach `i`
(the ceiling logarithm).  Fuel-based structural recursion; `p` doubles each
step, so fuel `i` always suffices. -/
def log2Aux : Nat → Nat → Nat → Nat
  | 0, _, _ => 0
  | fuel + 1, p, i => if p < i then 1 + log2Aux fuel (p + p) i else 0

/-- Modelled from the spec: ceiling base-2 logarithm, see `log2Aux`. -/
def log2 (i : Nat) : Nat := log2Aux i 1 i

/-- Modelled from the spec: the utility `roundUpPower2` is in a source file
not under src/.  The spec says "any non-zero request is rounded up to the
next power of two"; the Go bit-twiddling version maps 0 to 0. -/
def roundUpPower2 (n : Nat) : Nat := if n = 0 then 0 else 2 ^ log2 n

/-- The index table: `hashMapData` from hashmap.go.  The index slice holds
atomic pointers to list entries; since live entries have unique keys, a
pointer is represented by the key of the entry it points to. -/
structure TableData where
  keyshifts : Nat
  count : Nat
  slots : List (Option Nat)
deriving DecidableEq, Repr

/-- The map handle: `HashMap` from hashmap.go.  `data = none` models a nil
`datamap` pointer, `list = none` a nil `linkedlist` pointer.  The linked
list of live entries is a key-sorted association list. -/
structure HMap (V : Type) where
  data : Option TableData
  list : Option (List (Nat × V))
deriving DecidableEq, Repr

/-- A zero-value `&HashMap{}`: both pointers nil. -/
def emptyMap {V : Type} : HMap V := ⟨none, none⟩

variable {V : Type}

/-- Bucket of a key: `hashedKey >> data.keyshifts` (hashmap.go, indexElement). -/
def bucketOf (d : TableData) (k : Nat) : Nat := k >>> d.keyshifts

/-- Atomic load of the bucket slot for key `k`. -/
def slotAt (d : TableData) (k : Nat) : Option Nat := (d.slots.getD (bucketOf d k) none)

/-- Resolve a slot pointer to the list suffix that starts at the pointed
entry: in a sorted list, the entry with key `k0` heads the suffix of
entries whose key is at least `k0`.  A nil slot resolves to the empty
traversal (the Go loop starts with `element = nil`). -/
def startFrom {V : Type} (l : List (Nat × V)) : Option Nat → List (Nat × V)
  | none => []
  | some k0 => l.dropWhile (fun e => decide (e.1 < k0))

/-- The list of live entries of a map, an empty list for a nil pointer. -/
def entries {V : Type} (m : HMap V) : List (Nat × V) := m.list.getD []

/-- Number of live entries: `m.Len()`.  `List.Len` (sortedlist package, not
under src/) is modelled from the spec as the entry count; the repository
test TestGrow exercises `Len` on a nil list during grow, so a nil list has
length 0. -/
def mapLen {V : Type} (m : HMap V) : Nat := (entries m).length

/-- The function `indexElement` from hashmap.go: load the table, compute the
bucket, load the slot.  Returns `none` when `datamap` is nil, otherwise the
table together with the traversal starting at the pointed entry. -/
def indexElement {V : Type} (m : HMap V) (h : Nat) : Option (TableData × List (Nat × V)) :=
  match m.data with
  | none => none
  | some d => some (d, startFrom (entries m) (slotAt d h))

/-- The search loop shared by Get, Del and GetOrAdd: walk the traversal, a
hit on the key returns the value, passing a larger key returns not-found. -/
def searchItem {V : Type} (k : Nat) : List (Nat × V) → Option V
  | [] => none
  | e :: rest => if e.1 = k then some e.2 else if k < e.1 then none else searchItem k rest

/-- Get from hashmap_get.go / the unnamed source part: look up via the index
and walk from the hint. -/
def get {V : Type} (m : HMap V) (k : Nat) : Option V :=
  match indexElement m k with
  | none => none
  | some (_, tr) => searchItem k tr

/-- Insert into a sorted association list in front of the first larger key. -/
def insertSorted {V : Type} : List (Nat × V) → Nat → V → List (Nat × V)
  | [], k, v => [(k, v)]
  | e :: rest, k, v => if k < e.1 then (k, v) :: e :: rest else e :: insertSorted rest k v

/-- Modelled from the spec: `List.Add(new, hint)` of the sortedlist package
(not under src/), section 4.1: "If an entry with new.key is found, return
(true, false); if the link CAS succeeds, return (false, true)".  The hint
is a traversal shortcut (glossary: "may be stale, never wrong enough to
cause incorrect search") and sequentially does not change the result;
the link CAS always succeeds sequentially.  Returns (existed, new list). -/
def listAdd {V : Type} (l : List (Nat × V)) (k : Nat) (v : V) : Bool × List (Nat × V) :=
  if l.any (fun e => e.1 == k) then (true, l) else (false, insertSorted l k v)

/-- Modelled from the spec: `List.AddOrUpdate(new, hint)` of the sortedlist
package (not under src/), section 4.1: like Add but, on a matching key, the
value slot of the existing entry is swapped for the new value.  Sequentially
there is no concurrent interference, so it always succeeds. -/
def listAddOrUpdate {V : Type} : List (Nat × V) → Nat → V → List (Nat × V)
  | [], k, v => [(k, v)]
  | e :: rest, k, v =>
    if k < e.1 then (k, v) :: e :: rest
    else if k = e.1 then (k, v) :: rest
    else e :: listAddOrUpdate rest k v

/-- Modelled from the spec: `List.Cas(new, expected, hint)` of the sortedlist
package (not under src/), section 4.1: "succeeds iff the live entry with key
new.key currently has value equal ... to expected and its value slot CAS
succeeds; fails otherwise without retry".  Returns (ok, new list). -/
def listCas {V : Type} [DecidableEq V] : List (Nat × V) → Nat → V → V → Bool × List (Nat × V)
  | [], _, _, _ => (false, [])
  | e :: rest, k, frm, nv =>
    if e.1 = k then
      if e.2 = frm then (true, (k, nv) :: rest) else (false, e :: rest)
    else
      ((listCas rest k frm nv).1, e :: (listCas rest k frm nv).2)

/-- Modelled from the spec: `List.Delete(entry)` of the sortedlist package
(not under src/), section 4.1: mark deleted and unlink; sequentially the
entry is simply removed from the list. -/
def listDelete {V : Type} (l : List (Nat × V)) (k : Nat) : List (Nat × V) :=
  l.filter (fun e => decide (e.1 ≠ k))

/-- The function `addItemToIndex` from hashmap.go: place the item in its
bucket slot if the slot is empty (incrementing and returning the counter)
or if the item's key is smaller than the current slot's key (returning 0);
otherwise leave the slot alone and return 0. -/
def addItemToIndex (d : TableData) (k : Nat) : TableData × Nat :=
  match d.slots.getD (k >>> d.keyshifts) none with
  | none =>
    ({ d with slots := d.slots.set (k >>> d.keyshifts) (some k), count := d.count + 1 },
      d.count + 1)
  | some k0 =>
    if k < k0 then ({ d with slots := d.slots.set (k >>> d.keyshifts) (some k) }, 0) else (d, 0)

/-- The function `resizeNeeded` from hashmap.go: integer fill rate
`count * 100 / len` compared against MaxFillRate; an empty table never
resizes. -/
def resizeNeeded (d : TableData) (count : Nat) : Bool :=
  let l := d.slots.length
  if l = 0 then false else decide (count * 100 / l > MaxFillRate)

/-- The walk of `fillIndexItems` from hashmap.go: for every entry that is
first or whose bucket differs from the previous entry's bucket, install it
via `addItemToIndex`.  `addItemToIndex` never changes `keyshifts`, so the
bucket function is stable along the walk. -/
def fillGo : TableData → Bool → Nat → List (Nat × V) → TableData
  | d, _, _, [] => d
  | d, first, lastIndex, e :: rest =>
    let idx := e.1 >>> d.keyshifts
    if first || decide (idx ≠ lastIndex) then fillGo (addItemToIndex d e.1).1 false idx rest
    else fillGo d false lastIndex rest

/-- The function `fillIndexItems` from hashmap.go; a nil list pointer
returns immediately. -/
def fillIndexItems (d : TableData) : Option (List (Nat × V)) → TableData
  | none => d
  | some lst => fillGo d true 0 lst

/-- One iteration of the body of `grow` (hashmap.go): allocate the new
table with the adjusted shift and run `fillIndexItems` twice — before and
after publishing the table; sequentially both passes act on the same
list. -/
def growStep (m : HMap V) (ns2 : Nat) : TableData :=
  fillIndexItems
    (fillIndexItems { keyshifts := W - log2 ns2, count := 0, slots := List.replicate ns2 none }
      m.list)
    m.list

/-- The function `grow` from hashmap.go, with explicit fuel for the resize
loop (the sufficiency of the default fuel is proved below).  `none` models
either exhausted fuel or the nil-pointer panic: with `newSize = 0` and a
nil `datamap`, the Go code evaluates `len(data.index)` on a nil pointer.
Each iteration computes the target size (double on `newSize = 0`, else the
next power of two), runs `growStep`, and in looping mode repeats with
`newSize = 0` while the fill rate of the new table still exceeds the
threshold (the loop recomputes the count from `m.Len()`). -/
def growFuel : Nat → HMap V → Nat → Bool → Option (HMap V)
  | 0, _, _, _ => none
  | fuel + 1, m, newSize, loop =>
    match (if newSize = 0 then m.data.map (fun d => d.slots.length * 2)
           else some (roundUpPower2 newSize)) with
    | none => none
    | some ns2 =>
      if loop then
        if resizeNeeded (growStep m ns2) (mapLen m) then
          growFuel fuel { m with data := some (growStep m ns2) } 0 loop
        else some { m with data := some (growStep m ns2) }
      else some { m with data := some (growStep m ns2) }

/-- Default fuel for the grow loop: each iteration doubles the table, so
the integer fill rate strictly shrinks; this bound is proved sufficient. -/
def defaultFuel (m : HMap V) : Nat := 100 * mapLen m + 200

/-- The function `allocate` from hashmap.go: install a fresh list if the
list pointer is still nil and run a synchronous, non-looping grow.  If the
list already exists the compare-and-swap fails and nothing happens. -/
def allocate (m : HMap V) (newSize : Nat) : Option (HMap V) :=
  match m.list with
  | some _ => some m
  | none => growFuel (defaultFuel m + 2) { m with list := some [] } newSize false

/-- The function `insertListElement` from hashmap.go with explicit fuel for
the outer retry loop: a nil table triggers `allocate(DefaultSize)` and a
retry; then the list insert, the index install, and — when the fill rate
exceeds the threshold — a synchronous looping grow.  Returns the Insert
result together with the new state.  A nil list pointer alongside a live
table would make the Go code call a method on a nil list; that state is
unreachable and modelled as `none`. -/
def insertFuel : Nat → HMap V → Nat → V → Bool → Option (Bool × HMap V)
  | 0, _, _, _, _ => none
  | fuel + 1, m, k, v, update =>
    match m.data with
    | none =>
      match allocate m DefaultSize with
      | none => none
      | some m1 => insertFuel fuel m1 k v update
    | some d =>
      match m.list with
      | none => none
      | some l =>
        match (if update then some (listAddOrUpdate l k v)
               else
                 match listAdd l k v with
                 | (true, _) => none
                 | (_, l2) => some l2) with
        | none => some (false, m)
        | some l2 =>
          if resizeNeeded (addItemToIndex d k).1 (addItemToIndex d k).2 then
            match growFuel fuel { data := some (addItemToIndex d k).1, list := some l2 } 0 true with
            | none => none
            | some m3 => some (true, m3)
          else some (true, { data := some (addItemToIndex d k).1, list := some l2 })

/-- Set from hashmap.go: insert or overwrite. -/
def set (m : HMap V) (k : Nat) (v : V) : Option (HMap V) :=
  (insertFuel (defaultFuel m + 8) m k v true).map (fun r => r.2)

/-- Insert from hashmap.go: insert only if the key does not exist yet;
the Bool is the Insert return value. -/
def insert (m : HMap V) (k : Nat) (v : V) : Option (Bool × HMap V) :=
  insertFuel (defaultFuel m + 8) m k v false

/-- Successor key in the sorted list: what `element.Next()` returns for the
entry with key `k` (the entry after it, or none at the tail). -/
def successorKey {V : Type} : List (Nat × V) → Nat → Option Nat
  | [], _ => none
  | e :: rest, k => if e.1 = k then (rest.head?).map (fun x => x.1) else successorKey rest k

/-- The function `deleteElement` from hashmap.go: CAS the entry's bucket
slot from the entry to its successor.  The source guards the successor with
`element.key>>data.keyshifts != index`, where `index` was just computed as
`element.key >> data.keyshifts` — the condition is always false, so the
successor is never replaced by nil; the translation keeps that comparison
verbatim.  Sequentially no resize intervenes, so the retry loop runs once. -/
def deleteElement (d : TableData) (l : List (Nat × V)) (k : Nat) : TableData :=
  let idx := k >>> d.keyshifts
  let nxt := successorKey l k
  let nxt2 := if nxt.isSome && decide (k >>> d.keyshifts ≠ idx) then none else nxt
  if d.slots.getD idx none = some k then { d with slots := d.slots.set idx nxt2 } else d

/-- Del from hashmap.go: nothing on a nil list; search from the index hint
(leaving the map unchanged when the walk passes the key or hits nil);
otherwise unlink from the index and delete from the list. -/
def del (m : HMap V) (k : Nat) : HMap V :=
  match m.list with
  | none => m
  | some l =>
    match indexElement m k with
    | none => m
    | some (d, tr) =>
      if (searchItem k tr).isSome then
        { data := some (deleteElement d l k), list := some (listDelete l k) }
      else m

/-- DelHashedKey from hashmap.go: identical walk (Del's inner double key
comparison is vestigial), identical effect. -/
def delHashedKey (m : HMap V) (k : Nat) : HMap V :=
  match m.list with
  | none => m
  | some l =>
    match indexElement m k with
    | none => m
    | some (d, tr) =>
      if (searchItem k tr).isSome then
        { data := some (deleteElement d l k), list := some (listDelete l k) }
      else m

/-- CasHashedKey from hashmap.go: guarded by a live table and a live list,
then delegates to the list-level Cas. -/
def casHashedKey [DecidableEq V] (m : HMap V) (h : Nat) (frm nv : V) : Bool × HMap V :=
  match indexElement m h with
  | none => (false, m)
  | some _ =>
    match m.list with
    | none => (false, m)
    | some l =>
      let r := listCas l h frm nv
      (r.1, { m with list := some r.2 })

/-- Cas from hashmap.go: an alias of CasHashedKey. -/
def cas [DecidableEq V] (m : HMap V) (k : Nat) (frm nv : V) : Bool × HMap V :=
  casHashedKey m k frm nv

/-- New from hashmap.go: a fresh handle followed by `allocate(size)`. -/
def newMap (size : Nat) : Option (HMap V) := allocate emptyMap size

/-- Grow from hashmap.go: start a looping grow (the resize-flag CAS
succeeds on an idle map; sequentially the goroutine runs to completion). -/
def growPublic (m : HMap V) (newSize : Nat) : Option (HMap V) :=
  growFuel (defaultFuel m + 8) m newSize true

/-- FillRate from hashmap.go: loads `data.count` and `len(data.index)`
from the `mapData` pointer with no nil check, so a map whose index table
was never allocated dereferences nil (`none` here).  The float32 quotient
`count / l` is represented exactly by its numerator and denominator. -/
def fillRate (m : HMap V) : Option (Nat × Nat) :=
  match m.data with
  | none => none
  | some d => some (d.count, d.slots.length)

/-- GetOrAdd from hashmap_get.go and the unnamed source part, instrumented
for the at-most-one-allocation claim: `alloc` says whether the new list
entry has already been constructed, `allocs` counts constructions.  The
`oracle` injects the concurrent interference that makes
`insertListElement` fail and the loop restart (sequentially the state is
then unchanged); an empty oracle means no interference.  The result is
((value, loaded), final state, constructions). -/
def getOrAddO [DecidableEq V] :
    Nat → List Bool → HMap V → Nat → V → Bool → Nat → Option ((V × Bool) × HMap V × Nat)
  | 0, _, _, _, _, _, _ => none
  | fuel + 1, oracle, m, k, v, alloc, allocs =>
    match indexElement m k with
    | none =>
      match allocate m DefaultSize with
      | none => none
      | some m1 => getOrAddO fuel oracle m1 k v alloc allocs
    | some (_, tr) =>
      match searchItem k tr with
      | some w => some ((w, true), m, allocs)
      | none =>
        match oracle with
        | true :: rest => getOrAddO fuel rest m k v true (if alloc then allocs else allocs + 1)
        | false :: rest =>
          match insertFuel (defaultFuel m + 8) m k v false with
          | none => none
          | some (true, m2) => some ((v, false), m2, if alloc then allocs else allocs + 1)
          | some (false, _) =>
            getOrAddO fuel rest m k v true (if alloc then allocs else allocs + 1)
        | [] =>
          match insertFuel (defaultFuel m + 8) m k v false with
          | none => none
          | some (true, m2) => some ((v, false), m2, if alloc then allocs else allocs + 1)
          | some (false, _) =>
            getOrAddO fuel [] m k v true (if alloc then allocs else allocs + 1)

/-- GetOrInsert / GetOrAdd as called by the tests: no interference. -/
def getOrAdd [DecidableEq V] (m : HMap V) (k : Nat) (v : V) : Option ((V × Bool) × HMap V × Nat) :=
  getOrAddO (defaultFuel m + 8) [] m k v false 0

/-- Keys strictly increase along the list (spec section 3, list invariant). -/
def sortedL (l : List (Nat × V)) : Prop := l.Pairwise (fun a b => a.1 < b.1)

/-- All keys fit in a machine word. -/
def boundedL (l : List (Nat × V)) : Prop := ∀ e ∈ l, e.1 < 2 ^ W

instance sortedL.dec (l : List (Nat × V)) : Decidable (sortedL l) := by
  unfold sortedL
  infer_instance

instance boundedL.dec (l : List (Nat × V)) : Decidable (boundedL l) := by
  unfold boundedL
  infer_instance

/-- Shape of a reachable index table: the shift matches the length and the
length is a power of two (spec section 3: `length = 2^(W - shift)`). -/
def goodTable (d : TableData) : Prop :=
  d.keyshifts = W - log2 d.slots.length ∧ d.slots.length = 2 ^ log2 d.slots.length

/-- Table shape lifted to the optional table pointer. -/
def goodTableO : Option TableData → Prop
  | none => True
  | some d => goodTable d

instance goodTable.dec (d : TableData) : Decidable (goodTable d) := by
  unfold goodTable
  infer_instance

instance goodTableO.dec : (o : Option TableData) → Decidable (goodTableO o)
  | none => inferInstanceAs (Decidable True)
  | some d => inferInstanceAs (Decidable (goodTable d))

/-- Well-formed handle: sorted bounded entries, table and list pointers
allocated together, and a well-shaped table. -/
def WFfull (m : HMap V) : Prop :=
  sortedL (entries m) ∧ boundedL (entries m) ∧
  m.data.isNone = m.list.isNone ∧ goodTableO m.data

instance WFfull.dec (m : HMap V) : Decidable (WFfull m) := by
  unfold WFfull
  infer_instance

/-- The optional slot holds a key at most `k`. -/
def optLE : Option Nat → Nat → Prop
  | none, _ => False
  | some k0, k => k0 ≤ k

instance optLE.dec : (o : Option Nat) → (k : Nat) → Decidable (optLE o k)
  | none, _ => inferInstanceAs (Decidable False)
  | some _, _ => inferInstanceAs (Decidable (_ ≤ _))

/-- Index completeness: every live entry's bucket slot is occupied by a key
no larger than the entry's key, so an index-guided walk reaches the entry. -/
def slotProp (m : HMap V) : Prop :=
  ∀ e ∈ entries m, optLE (m.data.bind (fun d => slotAt d e.1)) e.1

instance slotProp.dec (m : HMap V) : Decidable (slotProp m) := by
  unfold slotProp
  infer_instance

/-- Reachability invariant used for the lookup-completeness directions. -/
def InvFull (m : HMap V) : Prop := WFfull m ∧ slotProp m

instance InvFull.dec (m : HMap V) : Decidable (InvFull m) := by
  unfold InvFull
  infer_instance

/-- The bucket contract of the claim, for one slot: a non-null slot of
bucket `b` points to a live entry whose key has bucket `b`, and no live
entry of bucket `b` has a smaller key. -/
def slotContract (l : List (Nat × V)) (shift b : Nat) : Option Nat → Prop
  | none => True
  | some k0 => (∃ e ∈ l, e.1 = k0) ∧ k0 >>> shift = b ∧ ∀ e ∈ l, e.1 >>> shift = b → k0 ≤ e.1

instance slotContract.dec (l : List (Nat × V)) (shift b : Nat) :
    (o : Option Nat) → Decidable (slotContract l shift b o)
  | none => inferInstanceAs (Decidable True)
  | some k0 => inferInstanceAs (Decidable (_ ∧ _))

/-- The bucket contract over a table. -/
def bucketContractD (d : TableData) (l : List (Nat × V)) : Prop :=
  ∀ b ∈ List.range d.slots.length, slotContract l d.keyshifts b (d.slots.getD b none)

instance bucketContractD.dec (d : TableData) (l : List (Nat × V)) :
    Decidable (bucketContractD d l) := by
  unfold bucketContractD
  infer_instance

/-- The bucket contract over the optional table pointer. -/
def bucketContractO : Option TableData → List (Nat × V) → Prop
  | none, _ => True
  | some d, l => bucketContractD d l

instance bucketContractO.dec : (o : Option TableData) → (l : List (Nat × V)) →
    Decidable (bucketContractO o l)
  | none, _ => inferInstanceAs (Decidable True)
  | some d, l => inferInstanceAs (Decidable (bucketContractD d l))

/-- The bucket-contract invariant of the claim, over a map state. -/
def bucketContract (m : HMap V) : Prop := bucketContractO m.data (entries m)

instance bucketContract.dec (m : HMap V) : Decidable (bucketContract m) :=
  inferInstanceAs (Decidable (bucketContractO m.data (entries m)))

/-- The table size targeted by one grow iteration. -/
def growTarget (m : HMap V) (ns : Nat) : Nat :=
  if ns = 0 then (m.data.map (fun d => d.slots.length * 2)).getD 0 else roundUpPower2 ns

/-- Fifty small keys inserted into a fresh map, as in the repository test
TestResize and the resize-preservation scenario of the spec. -/
def scen50 : Option (HMap Nat) := (List.range 50).foldlM (fun m i => set m i i) emptyMap

/-- The state reached from a fresh map by Set(0, 10) then Set(2^63, 20):
a default 8-slot table (shift 61), key 0 in bucket 0 and key 2^63 in
bucket 4. -/
def mPair : HMap Nat :=
  ⟨some ⟨61, 2, [some 0, none, none, none, some (2 ^ 63), none, none, none]⟩,
   some [(0, 10), (2 ^ 63, 20)]⟩

/-- The two Sets that build `mPair`. -/
def scenPair : Option (HMap Nat) :=
  (set (emptyMap : HMap Nat) 0 10).bind (fun m => set m (2 ^ 63) 20)

/-- The table of `mW`. -/
def dW : TableData := ⟨61, 1, [some 3, none, none, none, none, none, none, none]⟩

/-- The state reached from a fresh map by Set(3, 7). -/
def mW : HMap Nat := ⟨some dW, some [(3, 7)]⟩

/-- The state reached from a fresh map by GetOrAdd(2, 9). -/
def mGA : HMap Nat :=
  ⟨some ⟨61, 1, [some 2, none, none, none, none, none, none, none]⟩, some [(2, 9)]⟩

/-- The state produced by Grow(63) on a fresh map: a 64-slot table with
shift 58 and a still-nil list. -/
def mGrow63 : HMap Nat := ⟨some ⟨58, 0, List.replicate 64 none⟩, none⟩

section ListLemmas

theorem searchItem_eq_some {l : List (Nat × V)} {k : Nat} {v : V}
    (h : searchItem k l = some v) : (k, v) ∈ l := by
  induction l with
  | nil => simp [searchItem] at h
  | cons e rest ih =>
    obtain ⟨a, b⟩ := e
    by_cases h1 : a = k
    · subst h1
      simp [searchItem] at h
      subst h
      exact List.mem_cons_self _ _
    · by_cases h2 : k < a
      · simp [searchItem, h1, h2] at h
      · simp [searchItem, h1, h2] at h
        exact List.mem_cons_of_mem _ (ih h)

theorem searchItem_of_mem {l : List (Nat × V)} (hs : sortedL l) {k : Nat} {v : V}
    (h : (k, v) ∈ l) : searchItem k l = some v := by
  induction l with
  | nil => simp at h
  | cons e rest ih =>
    rcases List.mem_cons.mp h with h | h
    · subst h
      simp [searchItem]
    · have hlt : e.1 < k := (List.pairwise_cons.mp hs).1 _ h
      have : e.1 ≠ k := Nat.ne_of_lt hlt
      simp [searchItem, this, Nat.not_lt.mpr (Nat.le_of_lt hlt)]
      exact ih (List.pairwise_cons.mp hs).2 h

theorem searchItem_none_of_not_mem {l : List (Nat × V)} {k : Nat}
    (h : ∀ e ∈ l, e.1 ≠ k) : searchItem k l = none := by
  induction l with
  | nil => rfl
  | cons e rest ih =>
    have he := h e (List.mem_cons_self _ _)
    by_cases h2 : k < e.1
    · simp [searchItem, he, h2]
    · simp [searchItem, he, h2]
      exact ih (fun x hx => h x (List.mem_cons_of_mem _ hx))

theorem searchItem_dropWhile {l : List (Nat × V)} (hs : sortedL l) {k0 k : Nat}
    (h : k0 ≤ k) :
    searchItem k (l.dropWhile (fun e => decide (e.1 < k0))) = searchItem k l := by
  induction l with
  | nil => rfl
  | cons e rest ih =>
    by_cases hlt : e.1 < k0
    · have h1 : e.1 ≠ k := Nat.ne_of_lt (Nat.lt_of_lt_of_le hlt h)
      have h2 : ¬ k < e.1 := Nat.not_lt.mpr (Nat.le_of_lt (Nat.lt_of_lt_of_le hlt h))
      rw [List.dropWhile_cons_of_pos (by simpa using hlt)]
      rw [ih (List.pairwise_cons.mp hs).2]
      simp [searchItem, h1, h2]
    · rw [List.dropWhile_cons_of_neg (by simpa using hlt)]

theorem mem_insertSorted {l : List (Nat × V)} {k : Nat} {v : V} {x : Nat × V}
    (h : x ∈ insertSorted l k v) : x = (k, v) ∨ x ∈ l := by
  induction l with
  | nil => simpa [insertSorted] using h
  | cons e rest ih =>
    by_cases hlt : k < e.1
    · simp [insertSorted, hlt] at h
      rcases h with h | h | h
      · left; simp [h]
      · right; simp [h]
      · right; exact List.mem_cons_of_mem _ h
    · simp [insertSorted, hlt] at h
      rcases h with h | h
      · right; simp [h]
      · rcases ih h with h | h
        · left; exact h
        · right; exact List.mem_cons_of_mem _ h

theorem mem_insertSorted_self (l : List (Nat × V)) (k : Nat) (v : V) :
    (k, v) ∈ insertSorted l k v := by
  induction l with
  | nil => simp [insertSorted]
  | cons e rest ih =>
    by_cases hlt : k < e.1
    · simp [insertSorted, hlt]
    · simp [insertSorted, hlt]
      right
      exact ih

theorem sortedL_insertSorted {l : List (Nat × V)} (hs : sortedL l) {k : Nat} {v : V}
    (hnot : ∀ e ∈ l, e.1 ≠ k) : sortedL (insertSorted l k v) := by
  unfold sortedL at hs ⊢
  induction l with
  | nil => simp [insertSorted]
  | cons e rest ih =>
    rcases List.pairwise_cons.mp hs with ⟨hall, hrest⟩
    by_cases hlt : k < e.1
    · rw [insertSorted, if_pos hlt]
      refine List.pairwise_cons.mpr ⟨?_, hs⟩
      intro x hx
      rcases List.mem_cons.mp hx with h | h
      · subst h; exact hlt
      · exact Nat.lt_trans hlt (hall _ h)
    · have hne := hnot e (List.mem_cons_self _ _)
      have hgt : e.1 < k := Nat.lt_of_le_of_ne (Nat.not_lt.mp hlt) hne
      rw [insertSorted, if_neg hlt]
      refine List.pairwise_cons.mpr ⟨?_, ih hrest (fun x hx => hnot x (List.mem_cons_of_mem _ hx))⟩
      intro x hx
      rcases mem_insertSorted hx with h | h
      · subst h; exact hgt
      · exact hall _ h

theorem length_insertSorted (l : List (Nat × V)) (k : Nat) (v : V) :
    (insertSorted l k v).length = l.length + 1 := by
  induction l with
  | nil => rfl
  | cons e rest ih =>
    by_cases hlt : k < e.1
    · simp [insertSorted, hlt]
    · simp [insertSorted, hlt, ih]

theorem mem_listAddOrUpdate {l : List (Nat × V)} {k : Nat} {v : V} {x : Nat × V}
    (h : x ∈ listAddOrUpdate l k v) : x = (k, v) ∨ x ∈ l := by
  induction l with
  | nil => simpa [listAddOrUpdate] using h
  | cons e rest ih =>
    by_cases hlt : k < e.1
    · simp [listAddOrUpdate, hlt] at h
      rcases h with h | h | h
      · left; simp [h]
      · right; simp [h]
      · right; exact List.mem_cons_of_mem _ h
    · by_cases heq : k = e.1
      · simp [listAddOrUpdate, hlt, heq] at h
        rcases h with h | h
        · left; rw [h, ← heq]
        · right; exact List.mem_cons_of_mem _ h
      · simp [listAddOrUpdate, hlt, heq] at h
        rcases h with h | h
        · right; simp [h]
        · rcases ih h with h | h
          · left; exact h
          · right; exact List.mem_cons_of_mem _ h

theorem mem_listAddOrUpdate_self (l : List (Nat × V)) (k : Nat) (v : V) :
    (k, v) ∈ listAddOrUpdate l k v := by
  induction l with
  | nil => simp [listAddOrUpdate]
  | cons e rest ih =>
    by_cases hlt : k < e.1
    · simp [listAddOrUpdate, hlt]
    · by_cases heq : k = e.1
      · simp [listAddOrUpdate, hlt, heq]
      · simp [listAddOrUpdate, hlt, heq]
        right
        exact ih

theorem sortedL_listAddOrUpdate {l : List (Nat × V)} (hs : sortedL l) (k : Nat) (v : V) :
    sortedL (listAddOrUpdate l k v) := by
  unfold sortedL at hs ⊢
  induction l with
  | nil => simp [listAddOrUpdate]
  | cons e rest ih =>
    rcases List.pairwise_cons.mp hs with ⟨hall, hrest⟩
    by_cases hlt : k < e.1
    · rw [listAddOrUpdate, if_pos hlt]
      refine List.pairwise_cons.mpr ⟨?_, hs⟩
      intro x hx
      rcases List.mem_cons.mp hx with h | h
      · subst h; exact hlt
      · exact Nat.lt_trans hlt (hall _ h)
    · by_cases heq : k = e.1
      · rw [listAddOrUpdate, if_neg hlt, if_pos heq]
        refine List.pairwise_cons.mpr ⟨?_, hrest⟩
        intro x hx
        simpa [heq] using hall _ hx
      · have hgt : e.1 < k := Nat.lt_of_le_of_ne (Nat.not_lt.mp hlt) (fun h => heq h.symm)
        rw [listAddOrUpdate, if_neg hlt, if_neg heq]
        refine List.pairwise_cons.mpr ⟨?_, ih hrest⟩
        intro x hx
        rcases mem_listAddOrUpdate hx with h | h
        · subst h; exact hgt
        · exact hall _ h

theorem length_listAddOrUpdate (l : List (Nat × V)) (k : Nat) (v : V) :
    (listAddOrUpdate l k v).length ≤ l.length + 1 := by
  induction l with
  | nil => simp [listAddOrUpdate]
  | cons e rest ih =>
    by_cases hlt : k < e.1
    · simp [listAddOrUpdate, hlt]
    · by_cases heq : k = e.1
      · simp [listAddOrUpdate, hlt, heq]
      · simp only [listAddOrUpdate, if_neg hlt, if_neg heq, List.length_cons]
        omega

end ListLemmas

section TableLemmas

theorem log2Aux_pow {t a j : Nat} (h : j - a ≤ t) : log2Aux t (2 ^ a) (2 ^ j) = j - a := by
  induction t generalizing a with
  | zero =>
    have : j - a = 0 := Nat.le_zero.mp h
    simp [log2Aux, this]
  | succ t ih =>
    by_cases hlt : (2 : Nat) ^ a < 2 ^ j
    · have haj : a < j := (Nat.pow_lt_pow_iff_right (by norm_num)).mp hlt
      have hsum : (2 : Nat) ^ a + 2 ^ a = 2 ^ (a + 1) := by
        rw [pow_succ]
        omega
      rw [log2Aux, if_pos hlt, hsum, ih (by omega)]
      omega
    · have haj : j ≤ a := by
        by_contra hc
        exact hlt (Nat.pow_lt_pow_right (by norm_num) (by omega))
      rw [log2Aux, if_neg hlt]
      omega

theorem log2_pow (j : Nat) : log2 (2 ^ j) = j := by
  have h1 : (2 : Nat) ^ 0 = 1 := rfl
  have := @log2Aux_pow (2 ^ j) 0 j (by have := Nat.lt_two_pow j; omega)
  rw [log2, ← h1, this]
  omega

theorem bucket_lt_length {d : TableData} (hd : goodTable d) {k : Nat} (hk : k < 2 ^ W) :
    k >>> d.keyshifts < d.slots.length := by
  obtain ⟨hshift, hpow⟩ := hd
  set j := log2 d.slots.length with hj
  rw [hpow, hshift, Nat.shiftRight_eq_div_pow]
  by_cases hjW : j ≤ W
  · have hmul : (2 : Nat) ^ j * 2 ^ (W - j) = 2 ^ W := by
      rw [← pow_add]
      congr 1
      omega
    refine (Nat.div_lt_iff_lt_mul (Nat.pos_pow_of_pos _ (by norm_num))).mpr ?_
    rw [hmul]
    exact hk
  · have : W - j = 0 := by omega
    rw [this]
    simp only [pow_zero, Nat.div_one]
    exact Nat.lt_of_lt_of_le hk (Nat.pow_le_pow_right (by norm_num) (by omega))

theorem getD_set_self {l : List (Option Nat)} {i : Nat} (x : Option Nat)
    (h : i < l.length) : (l.set i x).getD i none = x := by
  simp [List.getD_eq_getElem?_getD, List.getElem?_set_self, h]

theorem getD_set_ne {l : List (Option Nat)} {i j : Nat} (x : Option Nat)
    (h : i ≠ j) : (l.set i x).getD j none = l.getD j none := by
  simp [List.getD_eq_getElem?_getD, List.getElem?_set_ne h]

theorem addItem_keyshifts (d : TableData) (k : Nat) :
    (addItemToIndex d k).1.keyshifts = d.keyshifts := by
  unfold addItemToIndex
  cases h : d.slots.getD (k >>> d.keyshifts) none with
  | none => rfl
  | some k0 =>
    by_cases hlt : k < k0 <;> simp [hlt]

theorem addItem_length (d : TableData) (k : Nat) :
    (addItemToIndex d k).1.slots.length = d.slots.length := by
  unfold addItemToIndex
  cases h : d.slots.getD (k >>> d.keyshifts) none with
  | none => simp
  | some k0 =>
    by_cases hlt : k < k0 <;> simp [hlt]

theorem addItem_goodTable {d : TableData} (hd : goodTable d) (k : Nat) :
    goodTable (addItemToIndex d k).1 := by
  unfold goodTable
  rw [addItem_keyshifts, addItem_length]
  exact hd

theorem addItem_slot_self {d : TableData} (hd : goodTable d) {k : Nat} (hk : k < 2 ^ W) :
    optLE (slotAt (addItemToIndex d k).1 k) k := by
  have hidx : k >>> d.keyshifts < d.slots.length := bucket_lt_length hd hk
  unfold addItemToIndex
  cases h : d.slots.getD (k >>> d.keyshifts) none with
  | none =>
    simp only [h]
    show optLE ((d.slots.set (k >>> d.keyshifts) (some k)).getD (k >>> d.keyshifts) none) k
    rw [@getD_set_self d.slots (k >>> d.keyshifts) (some k) hidx]
    exact Nat.le_refl k
  | some k0 =>
    by_cases hlt : k < k0
    · simp only [h, if_pos hlt]
      show optLE ((d.slots.set (k >>> d.keyshifts) (some k)).getD (k >>> d.keyshifts) none) k
      rw [@getD_set_self d.slots (k >>> d.keyshifts) (some k) hidx]
      exact Nat.le_refl k
    · simp only [h, if_neg hlt]
      show optLE (d.slots.getD (k >>> d.keyshifts) none) k
      rw [h]
      show k0 ≤ k
      omega

theorem addItem_slot_other (d : TableData) (k : Nat) {b : Nat}
    (hb : b ≠ k >>> d.keyshifts) :
    (addItemToIndex d k).1.slots.getD b none = d.slots.getD b none := by
  unfold addItemToIndex
  cases h : d.slots.getD (k >>> d.keyshifts) none with
  | none =>
    simp only [h]
    exact getD_set_ne _ (fun hc => hb hc.symm)
  | some k0 =>
    by_cases hlt : k < k0
    · simp only [h, if_pos hlt]
      exact getD_set_ne _ (fun hc => hb hc.symm)
    · simp only [h, if_neg hlt]

theorem addItem_mono (d : TableData) (k b k0 : Nat)
    (h : d.slots.getD b none = some k0) :
    ∃ k1, (addItemToIndex d k).1.slots.getD b none = some k1 ∧ k1 ≤ k0 := by
  by_cases hb : b = k >>> d.keyshifts
  · unfold addItemToIndex
    rw [← hb, h]
    by_cases hlt : k < k0
    · simp only [if_pos hlt]
      have hidx : b < d.slots.length := by
        by_contra hc
        rw [List.getD_eq_getElem?_getD, List.getElem?_eq_none (by omega)] at h
        simp at h
      refine ⟨k, ?_, Nat.le_of_lt hlt⟩
      simpa using @getD_set_self d.slots b (some k) hidx
    · simp only [if_neg hlt]
      exact ⟨k0, h, Nat.le_refl _⟩
  · rw [addItem_slot_other d k hb, h]
    exact ⟨k0, rfl, Nat.le_refl _⟩

end TableLemmas

section FillLemmas

theorem fillGo_keyshifts (l : List (Nat × V)) :
    ∀ (d : TableData) (first : Bool) (li : Nat),
      (fillGo d first li l).keyshifts = d.keyshifts := by
  induction l with
  | nil => intro d first li; rfl
  | cons e rest ih =>
    intro d first li
    by_cases hcond : (first || decide (e.1 >>> d.keyshifts ≠ li)) = true
    · rw [fillGo, if_pos hcond, ih, addItem_keyshifts]
    · rw [fillGo, if_neg hcond, ih]

theorem fillGo_length (l : List (Nat × V)) :
    ∀ (d : TableData) (first : Bool) (li : Nat),
      (fillGo d first li l).slots.length = d.slots.length := by
  induction l with
  | nil => intro d first li; rfl
  | cons e rest ih =>
    intro d first li
    by_cases hcond : (first || decide (e.1 >>> d.keyshifts ≠ li)) = true
    · rw [fillGo, if_pos hcond, ih, addItem_length]
    · rw [fillGo, if_neg hcond, ih]

theorem fillGo_goodTable {l : List (Nat × V)} {d : TableData} (hd : goodTable d)
    (first : Bool) (li : Nat) : goodTable (fillGo d first li l) := by
  unfold goodTable
  rw [fillGo_keyshifts, fillGo_length]
  exact hd

theorem fillGo_mono (l : List (Nat × V)) :
    ∀ (d : TableData) (first : Bool) (li b k0 : Nat),
      d.slots.getD b none = some k0 →
      ∃ k1, (fillGo d first li l).slots.getD b none = some k1 ∧ k1 ≤ k0 := by
  induction l with
  | nil =>
    intro d first li b k0 h
    exact ⟨k0, h, Nat.le_refl _⟩
  | cons e rest ih =>
    intro d first li b k0 h
    by_cases hcond : (first || decide (e.1 >>> d.keyshifts ≠ li)) = true
    · rw [fillGo, if_pos hcond]
      obtain ⟨k1, h1, h1le⟩ := addItem_mono d e.1 b k0 h
      obtain ⟨k2, h2, h2le⟩ := ih (addItemToIndex d e.1).1 false (e.1 >>> d.keyshifts) b k1 h1
      exact ⟨k2, h2, Nat.le_trans h2le h1le⟩
    · rw [fillGo, if_neg hcond]
      exact ih d false li b k0 h

theorem fillGo_good (l : List (Nat × V)) :
    ∀ (d : TableData), sortedL l → boundedL l → goodTable d →
    ∀ (first : Bool) (li : Nat),
    (first = false → ∀ x ∈ l, x.1 >>> d.keyshifts = li →
      ∃ k0, d.slots.getD li none = some k0 ∧ k0 ≤ x.1) →
    ∀ e ∈ l, ∃ k1,
      (fillGo d first li l).slots.getD (e.1 >>> d.keyshifts) none = some k1 ∧ k1 ≤ e.1 := by
  induction l with
  | nil => intro d _ _ _ first li _ e he; simp at he
  | cons e rest ih =>
    intro d hs hbnd hd first li hpre e' he'
    rcases List.pairwise_cons.mp hs with ⟨hall, hrest⟩
    have hbe : e.1 < 2 ^ W := hbnd e (List.mem_cons_self _ _)
    have hbrest : boundedL rest := fun x hx => hbnd x (List.mem_cons_of_mem _ hx)
    by_cases hcond : (first || decide (e.1 >>> d.keyshifts ≠ li)) = true
    · rw [fillGo, if_pos hcond]
      have hd2 : goodTable (addItemToIndex d e.1).1 := addItem_goodTable hd e.1
      have hks : (addItemToIndex d e.1).1.keyshifts = d.keyshifts := addItem_keyshifts d e.1
      have hself : optLE (slotAt (addItemToIndex d e.1).1 e.1) e.1 := addItem_slot_self hd hbe
      have hslot : ∃ m0, (addItemToIndex d e.1).1.slots.getD (e.1 >>> d.keyshifts) none =
          some m0 ∧ m0 ≤ e.1 := by
        unfold slotAt bucketOf at hself
        rw [hks] at hself
        cases hval : (addItemToIndex d e.1).1.slots.getD (e.1 >>> d.keyshifts) none with
        | none => rw [hval] at hself; exact absurd hself (by simp [optLE])
        | some m0 => rw [hval] at hself; exact ⟨m0, rfl, hself⟩
      obtain ⟨m0, hm0, hm0le⟩ := hslot
      have hpre2 : (false : Bool) = false → ∀ x ∈ rest,
          x.1 >>> (addItemToIndex d e.1).1.keyshifts = e.1 >>> d.keyshifts →
          ∃ k0, (addItemToIndex d e.1).1.slots.getD (e.1 >>> d.keyshifts) none = some k0 ∧
            k0 ≤ x.1 := by
        intro _ x hx _
        exact ⟨m0, hm0, Nat.le_trans hm0le (Nat.le_of_lt (hall _ hx))⟩
      rcases List.mem_cons.mp he' with h | h
      · subst h
        obtain ⟨k1, h1, h1le⟩ :=
          fillGo_mono rest (addItemToIndex d e'.1).1 false (e'.1 >>> d.keyshifts)
            (e'.1 >>> d.keyshifts) m0 hm0
        exact ⟨k1, h1, Nat.le_trans h1le hm0le⟩
      · have := ih (addItemToIndex d e.1).1 hrest hbrest hd2 false (e.1 >>> d.keyshifts)
          (by rw [hks] at hpre2 ⊢; exact hpre2) e' h
        rwa [hks] at this
    · have hfirst : first = false := by
        cases first
        · rfl
        · simp at hcond
      have hidx : e.1 >>> d.keyshifts = li := by
        cases hli : decide (e.1 >>> d.keyshifts ≠ li) with
        | true => rw [hfirst, hli] at hcond; simp at hcond
        | false => simpa using hli
      rw [fillGo, if_neg hcond]
      obtain ⟨k0, hk0, hk0le⟩ :=
        hpre hfirst e (List.mem_cons_self _ _) hidx
      have hpre2 : (false : Bool) = false → ∀ x ∈ rest, x.1 >>> d.keyshifts = li →
          ∃ k0a, d.slots.getD li none = some k0a ∧ k0a ≤ x.1 := by
        intro _ x hx _
        exact ⟨k0, hk0, Nat.le_trans hk0le (Nat.le_of_lt (hall _ hx))⟩
      rcases List.mem_cons.mp he' with h | h
      · subst h
        rw [hidx]
        obtain ⟨k1, h1, h1le⟩ := fillGo_mono rest d false li li k0 hk0
        exact ⟨k1, h1, Nat.le_trans h1le hk0le⟩
      · exact ih d hrest hbrest hd false li hpre2 e' h

end FillLemmas

section GrowLemmas

theorem fillIndexItems_keyshifts (d : TableData) (o : Option (List (Nat × V))) :
    (fillIndexItems d o).keyshifts = d.keyshifts := by
  cases o with
  | none => rfl
  | some lst => exact fillGo_keyshifts lst d true 0

theorem fillIndexItems_length (d : TableData) (o : Option (List (Nat × V))) :
    (fillIndexItems d o).slots.length = d.slots.length := by
  cases o with
  | none => rfl
  | some lst => exact fillGo_length lst d true 0

theorem fillIndexItems_goodTable {d : TableData} (hd : goodTable d)
    (o : Option (List (Nat × V))) : goodTable (fillIndexItems d o) := by
  unfold goodTable
  rw [fillIndexItems_keyshifts, fillIndexItems_length]
  exact hd

theorem growStep_keyshifts (m : HMap V) (ns2 : Nat) :
    (growStep m ns2).keyshifts = W - log2 ns2 := by
  unfold growStep
  rw [fillIndexItems_keyshifts, fillIndexItems_keyshifts]

theorem growStep_length (m : HMap V) (ns2 : Nat) :
    (growStep m ns2).slots.length = ns2 := by
  unfold growStep
  rw [fillIndexItems_length, fillIndexItems_length]
  exact List.length_replicate _ _

theorem baseTable_good {ns2 p : Nat} (hp : ns2 = 2 ^ p) :
    goodTable ({ keyshifts := W - log2 ns2, count := 0, slots := List.replicate ns2 none } :
      TableData) := by
  constructor
  · simp [List.length_replicate]
  · simp only [List.length_replicate]
    rw [hp, log2_pow]

theorem growStep_good (m : HMap V) {ns2 p : Nat} (hp : ns2 = 2 ^ p) :
    goodTable (growStep m ns2) :=
  fillIndexItems_goodTable (fillIndexItems_goodTable (baseTable_good hp) _) _

theorem growStep_slots {m : HMap V} (hs : sortedL (entries m)) (hbnd : boundedL (entries m))
    {ns2 p : Nat} (hp : ns2 = 2 ^ p) :
    ∀ e ∈ entries m, ∃ k1,
      (growStep m ns2).slots.getD (e.1 >>> (growStep m ns2).keyshifts) none = some k1 ∧
        k1 ≤ e.1 := by
  intro e he
  cases hml : m.list with
  | none =>
    rw [entries, hml] at he
    simp at he
  | some lst =>
    have hent : entries m = lst := by rw [entries, hml]; rfl
    rw [hent] at hs hbnd he
    obtain ⟨k1, h1, h1le⟩ :=
      fillGo_good lst
        { keyshifts := W - log2 ns2, count := 0, slots := List.replicate ns2 none }
        hs hbnd (baseTable_good hp) true 0 (fun hf => absurd hf (by simp)) e he
    obtain ⟨k2, h2, h2le⟩ :=
      fillGo_mono lst
        (fillGo { keyshifts := W - log2 ns2, count := 0, slots := List.replicate ns2 none }
          true 0 lst)
        true 0 _ k1 h1
    rw [growStep_keyshifts]
    refine ⟨k2, ?_, Nat.le_trans h2le h1le⟩
    unfold growStep
    rw [hml]
    exact h2

theorem growFuel_spec :
    ∀ (fuel : Nat) (m : HMap V) (ns : Nat) (loop : Bool) (mr : HMap V),
      growFuel fuel m ns loop = some mr →
      sortedL (entries m) → boundedL (entries m) →
      (ns = 0 → ∃ d, m.data = some d ∧ goodTable d) →
      mr.list = m.list ∧ ∃ dr, mr.data = some dr ∧ goodTable dr ∧
        ∀ e ∈ entries m, ∃ k1,
          dr.slots.getD (e.1 >>> dr.keyshifts) none = some k1 ∧ k1 ≤ e.1 := by
  intro fuel
  induction fuel with
  | zero =>
    intro m ns loop mr h
    exact absurd h (by simp [growFuel])
  | succ fuel ih =>
    intro m ns loop mr h hs hbnd hns
    rw [growFuel] at h
    split at h
    · exact absurd h (by simp)
    · rename_i ns2 hns2
      have hpow : ∃ p, ns2 = 2 ^ p := by
        by_cases hns0 : ns = 0
        · rw [if_pos hns0] at hns2
          obtain ⟨d, hd, hgood⟩ := hns hns0
          rw [hd] at hns2
          simp only [Option.map_some', Option.some.injEq] at hns2
          obtain ⟨_, hp⟩ := hgood
          refine ⟨log2 d.slots.length + 1, ?_⟩
          rw [← hns2, pow_succ, ← hp]
        · rw [if_neg hns0, roundUpPower2, if_neg hns0] at hns2
          exact ⟨log2 ns, (Option.some.injEq _ _).mp hns2 |>.symm⟩
      obtain ⟨p, hp⟩ := hpow
      have hgoodr : goodTable (growStep m ns2) := growStep_good m hp
      have hslots := growStep_slots hs hbnd hp
      cases loop with
      | false =>
        simp only [if_neg (Bool.false_ne_true)] at h
        obtain rfl : ({ m with data := some (growStep m ns2) } : HMap V) = mr :=
          (Option.some.injEq _ _).mp h
        exact ⟨rfl, growStep m ns2, rfl, hgoodr, hslots⟩
      | true =>
        simp only [if_pos rfl] at h
        by_cases hrn : resizeNeeded (growStep m ns2) (mapLen m) = true
        · rw [if_pos hrn] at h
          have hlist : ({ m with data := some (growStep m ns2) } : HMap V).list = m.list := rfl
          have hent : entries { m with data := some (growStep m ns2) } = entries m := rfl
          have := ih { m with data := some (growStep m ns2) } 0 true mr h
            (by rw [hent]; exact hs) (by rw [hent]; exact hbnd)
            (fun _ => ⟨growStep m ns2, rfl, hgoodr⟩)
          obtain ⟨h1, dr, h2, h3, h4⟩ := this
          exact ⟨h1, dr, h2, h3, h4⟩
        · rw [if_neg hrn] at h
          obtain rfl : ({ m with data := some (growStep m ns2) } : HMap V) = mr :=
            (Option.some.injEq _ _).mp h
          exact ⟨rfl, growStep m ns2, rfl, hgoodr, hslots⟩

end GrowLemmas

section InsertLemmas

theorem entries_some {m : HMap V} {l : List (Nat × V)} (hl : m.list = some l) :
    entries m = l := by
  rw [entries, hl]
  rfl

theorem entries_none {m : HMap V} (hl : m.list = none) : entries m = [] := by
  rw [entries, hl]
  rfl

theorem get_eq {m : HMap V} {d : TableData} (hd : m.data = some d) (k : Nat) :
    get m k = searchItem k (startFrom (entries m) (slotAt d k)) := by
  unfold get indexElement
  rw [hd]

theorem get_of_slot {mr : HMap V} {dr : TableData} {lr : List (Nat × V)} {k k0 : Nat} {v : V}
    (hd : mr.data = some dr) (hl : mr.list = some lr) (hs : sortedL lr)
    (hmem : (k, v) ∈ lr)
    (hslot : dr.slots.getD (k >>> dr.keyshifts) none = some k0) (hk0 : k0 ≤ k) :
    get mr k = some v := by
  rw [get_eq hd, entries_some hl]
  have hsa : slotAt dr k = some k0 := hslot
  rw [hsa]
  show searchItem k (lr.dropWhile (fun e => decide (e.1 < k0))) = some v
  rw [searchItem_dropWhile hs hk0]
  exact searchItem_of_mem hs hmem

theorem listAdd_not_existed {l : List (Nat × V)} {k : Nat} {v : V}
    (h : (listAdd l k v).1 = false) : ∀ e ∈ l, e.1 ≠ k := by
  intro e he
  unfold listAdd at h
  by_cases hany : l.any (fun e => e.1 == k) = true
  · rw [if_pos hany] at h
    simp at h
  · intro hc
    exact hany (List.any_eq_true.mpr ⟨e, he, by simp [hc]⟩)

theorem WFfull_goodTable {m : HMap V} {d : TableData} (hw : WFfull m)
    (hd : m.data = some d) : goodTable d := by
  have := hw.2.2.2
  rw [hd] at this
  exact this

theorem optLE_some {o : Option Nat} {k : Nat} (h : optLE o k) :
    ∃ k0, o = some k0 ∧ k0 ≤ k := by
  cases o with
  | none => exact absurd h (by simp [optLE])
  | some k0 => exact ⟨k0, rfl, h⟩

theorem insertFuel_get :
    ∀ (fuel : Nat) (m : HMap V) (k : Nat) (v : V) (update : Bool) (mr : HMap V),
      insertFuel fuel m k v update = some (true, mr) →
      WFfull m → k < 2 ^ W →
      get mr k = some v := by
  intro fuel
  induction fuel with
  | zero =>
    intro m k v update mr h
    exact absurd h (by simp [insertFuel])
  | succ fuel ih =>
    intro m k v update mr h hw hk
    rw [insertFuel] at h
    split at h
    · rename_i hdata
      cases hlist : m.list with
      | some l =>
        have h1 := hw.2.2.1
        rw [hdata, hlist] at h1
        simp at h1
      | none =>
        have hallo : allocate m DefaultSize =
            growFuel (defaultFuel m + 2) { m with list := some [] } DefaultSize false := by
          unfold allocate
          rw [hlist]
        rw [hallo] at h
        split at h
        · exact absurd h (by simp)
        · rename_i m1 hm1
          have hml1 : ({ m with list := some [] } : HMap V).list = some [] := rfl
          have hspec := growFuel_spec _ _ _ _ _ hm1
            (by rw [entries_some hml1]; exact List.Pairwise.nil)
            (by rw [entries_some hml1]; intro e he; simp at he)
            (fun hc => absurd hc (by simp [DefaultSize]))
          obtain ⟨hlist1, d1, hd1, hgood1, _⟩ := hspec
          refine ih m1 k v update mr h ?_ hk
          refine ⟨?_, ?_, ?_, ?_⟩
          · rw [entries_some (hlist1.trans hml1)]
            exact List.Pairwise.nil
          · rw [entries_some (hlist1.trans hml1)]
            intro e he
            simp at he
          · rw [hd1, hlist1.trans hml1]
            rfl
          · rw [hd1]
            exact hgood1
    · rename_i d hdata
      have hgd : goodTable d := WFfull_goodTable hw hdata
      split at h
      · rename_i hlist
        have h1 := hw.2.2.1
        rw [hdata, hlist] at h1
        simp at h1
      · rename_i l hlist
        have hsl : sortedL l := by
          have := hw.1
          rwa [entries_some hlist] at this
        have hbl : boundedL l := by
          have := hw.2.1
          rwa [entries_some hlist] at this
        split at h
        · rename_i hstep
          simp at h
        · rename_i l2 hstep
          have hl2 : sortedL l2 ∧ (k, v) ∈ l2 ∧ boundedL l2 := by
            by_cases hup : update = true
            · rw [if_pos hup] at hstep
              obtain rfl : listAddOrUpdate l k v = l2 := (Option.some.injEq _ _).mp hstep
              refine ⟨sortedL_listAddOrUpdate hsl k v, mem_listAddOrUpdate_self l k v, ?_⟩
              intro e he
              rcases mem_listAddOrUpdate he with he2 | he2
              · rw [he2]; exact hk
              · exact hbl e he2
            · rw [if_neg hup] at hstep
              rcases hadd : listAdd l k v with ⟨fst, lr⟩
              rw [hadd] at hstep
              cases fst with
              | true => simp at hstep
              | false =>
                have hne : ∀ e ∈ l, e.1 ≠ k := listAdd_not_existed (by rw [hadd])
                have hlr : lr = insertSorted l k v := by
                  unfold listAdd at hadd
                  by_cases hany : l.any (fun e => e.1 == k) = true
                  · rw [if_pos hany] at hadd
                    simp at hadd
                  · rw [if_neg hany] at hadd
                    exact ((Prod.mk.injEq _ _ _ _).mp hadd).2.symm
                obtain rfl : lr = l2 := (Option.some.injEq _ _).mp hstep
                subst hlr
                refine ⟨sortedL_insertSorted hsl hne, mem_insertSorted_self l k v, ?_⟩
                intro e he
                rcases mem_insertSorted he with he2 | he2
                · rw [he2]; exact hk
                · exact hbl e he2
          obtain ⟨hsl2, hmem2, hbl2⟩ := hl2
          by_cases hrn : resizeNeeded (addItemToIndex d k).1 (addItemToIndex d k).2 = true
          · rw [if_pos hrn] at h
            split at h
            · exact absurd h (by simp)
            · rename_i m3 hm3
              obtain rfl : m3 = mr := by
                have := (Option.some.injEq _ _).mp h
                exact ((Prod.mk.injEq _ _ _ _).mp this).2
              have hml2 : ({ data := some (addItemToIndex d k).1, list := some l2 } :
                  HMap V).list = some l2 := rfl
              have hspec := growFuel_spec _ _ _ _ _ hm3
                (by rw [entries_some hml2]; exact hsl2)
                (by rw [entries_some hml2]; exact hbl2)
                (fun _ => ⟨(addItemToIndex d k).1, rfl, addItem_goodTable hgd k⟩)
              obtain ⟨hlist3, d3, hd3, hgood3, hslots3⟩ := hspec
              obtain ⟨k1, hk1, hk1le⟩ := hslots3 (k, v) (by rw [entries_some hml2]; exact hmem2)
              exact get_of_slot hd3 (hlist3.trans hml2) hsl2 hmem2 hk1 hk1le
          · rw [if_neg hrn] at h
            obtain rfl : ({ data := some (addItemToIndex d k).1, list := some l2 } : HMap V)
                = mr := by
              have := (Option.some.injEq _ _).mp h
              exact ((Prod.mk.injEq _ _ _ _).mp this).2
            obtain ⟨k0, hk0, hk0le⟩ := optLE_some (addItem_slot_self hgd hk)
            exact get_of_slot rfl rfl hsl2 hmem2 hk0 hk0le

end InsertLemmas

section DelLemmas

theorem mem_startFrom {l : List (Nat × V)} {o : Option Nat} {x : Nat × V}
    (h : x ∈ startFrom l o) : x ∈ l := by
  cases o with
  | none => simp [startFrom] at h
  | some k0 => exact ((List.dropWhile_suffix _).sublist.subset h)

theorem get_entries_nil {m : HMap V} (h : entries m = []) (k : Nat) : get m k = none := by
  cases hd : m.data with
  | none => simp [get, indexElement, hd]
  | some d =>
    rw [get_eq hd k, h]
    cases slotAt d k with
    | none => rfl
    | some k0 => rfl

theorem get_del_same (m : HMap V) (k : Nat) : get (del m k) k = none := by
  unfold del
  split
  · rename_i hlist
    exact get_entries_nil (entries_none hlist) k
  · rename_i l hlist
    split
    · rename_i hidx
      unfold get
      rw [hidx]
    · rename_i d tr hidx
      split
      · rename_i hfound
        have hd : (⟨some (deleteElement d l k), some (listDelete l k)⟩ : HMap V).data =
            some (deleteElement d l k) := rfl
        have hl : (⟨some (deleteElement d l k), some (listDelete l k)⟩ : HMap V).list =
            some (listDelete l k) := rfl
        rw [get_eq hd k, entries_some hl]
        cases hres : searchItem k (startFrom (listDelete l k) (slotAt (deleteElement d l k) k))
          with
        | none => rfl
        | some v =>
          exfalso
          have hmem := mem_startFrom (searchItem_eq_some hres)
          have := (List.mem_filter.mp hmem).2
          simp at this
      · rename_i hfound
        have hnone : searchItem k tr = none := by
          cases hres : searchItem k tr with
          | none => rfl
          | some v => exact absurd (by rw [hres]; rfl) hfound
        unfold get
        rw [hidx]
        exact hnone

theorem delHashedKey_eq_del (m : HMap V) (k : Nat) : delHashedKey m k = del m k := rfl

theorem insertFuel_update_true :
    ∀ (fuel : Nat) (m : HMap V) (k : Nat) (v : V) (b : Bool) (mr : HMap V),
      insertFuel fuel m k v true = some (b, mr) → b = true := by
  intro fuel
  induction fuel with
  | zero =>
    intro m k v b mr h
    exact absurd h (by simp [insertFuel])
  | succ fuel ih =>
    intro m k v b mr h
    rw [insertFuel] at h
    split at h
    · split at h
      · exact absurd h (by simp)
      · rename_i m1 hm1
        exact ih m1 k v b mr h
    · split at h
      · exact absurd h (by simp)
      · split at h
        · rename_i hstep
          rw [if_pos rfl] at hstep
          exact absurd hstep (by simp)
        · split at h
          · split at h
            · exact absurd h (by simp)
            · have := (Option.some.injEq _ _).mp h
              exact ((Prod.mk.injEq _ _ _ _).mp this).1.symm
          · have := (Option.some.injEq _ _).mp h
            exact ((Prod.mk.injEq _ _ _ _).mp this).1.symm

theorem set_get {m mr : HMap V} {k : Nat} {v : V} (hw : WFfull m) (hk : k < 2 ^ W)
    (hset : set m k v = some mr) : get mr k = some v := by
  unfold set at hset
  cases hins : insertFuel (defaultFuel m + 8) m k v true with
  | none =>
    rw [hins] at hset
    simp at hset
  | some r =>
    rw [hins] at hset
    simp only [Option.map_some', Option.some.injEq] at hset
    obtain ⟨b, mr2⟩ := r
    have hb : b = true := insertFuel_update_true _ m k v b mr2 hins
    subst hb
    have : mr2 = mr := hset
    subst this
    exact insertFuel_get _ m k v true mr2 hins hw hk

end DelLemmas

section TotalityLemmas

theorem resizeNeeded_zero (d : TableData) : resizeNeeded d 0 = false := by
  unfold resizeNeeded
  by_cases h : d.slots.length = 0
  · rw [if_pos h]
  · rw [if_neg h]
    simp [MaxFillRate]

theorem growFuel_isSome :
    ∀ (fuel : Nat) (m : HMap V) (ns : Nat) (loop : Bool),
      (ns = 0 → m.data.isSome = true) →
      mapLen m * 100 / growTarget m ns < fuel →
      (growFuel fuel m ns loop).isSome = true := by
  intro fuel
  induction fuel with
  | zero =>
    intro m ns loop hd hm
    exact absurd hm (Nat.not_lt_zero _)
  | succ fuel ih =>
    intro m ns loop hd hm
    rw [growFuel]
    split
    · rename_i hnone
      by_cases hns : ns = 0
      · rw [if_pos hns] at hnone
        cases hdata : m.data with
        | none =>
          have := hd hns
          rw [hdata] at this
          simp at this
        | some d =>
          rw [hdata] at hnone
          simp at hnone
      · rw [if_neg hns] at hnone
        simp at hnone
    · rename_i ns2 hns2
      have htar : growTarget m ns = ns2 := by
        unfold growTarget
        by_cases hns : ns = 0
        · rw [if_pos hns]
          rw [if_pos hns] at hns2
          rw [hns2]
          rfl
        · rw [if_neg hns]
          rw [if_neg hns] at hns2
          exact (Option.some.injEq _ _).mp hns2
      rw [htar] at hm
      cases loop with
      | false => simp
      | true =>
        simp only [if_pos rfl]
        by_cases hrn : resizeNeeded (growStep m ns2) (mapLen m) = true
        · rw [if_pos hrn]
          have hlen2 : (growStep m ns2).slots.length = ns2 := growStep_length m ns2
          have hgt : mapLen m * 100 / ns2 > 50 := by
            unfold resizeNeeded at hrn
            by_cases hl0 : (growStep m ns2).slots.length = 0
            · rw [if_pos hl0] at hrn
              simp at hrn
            · rw [if_neg hl0] at hrn
              rw [hlen2] at hrn
              simpa [MaxFillRate] using hrn
          have hml : mapLen ({ m with data := some (growStep m ns2) } : HMap V) = mapLen m :=
            rfl
          refine ih { m with data := some (growStep m ns2) } 0 true (fun _ => rfl) ?_
          rw [hml]
          have htar2 : growTarget ({ m with data := some (growStep m ns2) } : HMap V) 0 =
              ns2 * 2 := by
            unfold growTarget
            rw [if_pos rfl]
            simp [hlen2]
          rw [htar2, ← Nat.div_div_eq_div_mul]
          have hpos : 0 < mapLen m * 100 / ns2 := by omega
          have hhalf : mapLen m * 100 / ns2 / 2 < mapLen m * 100 / ns2 :=
            Nat.div_lt_self hpos (by norm_num)
          omega
        · rw [if_neg hrn]
          simp

theorem insertFuel_isSome_allocated :
    ∀ (fuel : Nat) (m : HMap V) (k : Nat) (v : V) (update : Bool),
      WFfull m → m.data.isSome = true → 100 * mapLen m + 151 ≤ fuel →
      (insertFuel fuel m k v update).isSome = true := by
  intro fuel
  cases fuel with
  | zero =>
    intro m k v update hw hd hb
    exact absurd hb (by omega)
  | succ fuel =>
    intro m k v update hw hdsome hb
    rw [insertFuel]
    split
    · rename_i hdata
      rw [hdata] at hdsome
      simp at hdsome
    · rename_i d hdata
      have hgd : goodTable d := WFfull_goodTable hw hdata
      split
      · rename_i hlist
        have h1 := hw.2.2.1
        rw [hdata, hlist] at h1
        simp at h1
      · rename_i l hlist
        have hmlN : mapLen m = l.length := by
          unfold mapLen
          rw [entries_some hlist]
        split
        · simp
        · rename_i l2 hstep
          have hlen2 : l2.length ≤ l.length + 1 := by
            by_cases hup : update = true
            · rw [if_pos hup] at hstep
              obtain rfl : listAddOrUpdate l k v = l2 := (Option.some.injEq _ _).mp hstep
              exact length_listAddOrUpdate l k v
            · rw [if_neg hup] at hstep
              rcases hadd : listAdd l k v with ⟨fst, lr⟩
              rw [hadd] at hstep
              cases fst with
              | true => simp at hstep
              | false =>
                have hlr : lr = insertSorted l k v := by
                  unfold listAdd at hadd
                  by_cases hany : l.any (fun e => e.1 == k) = true
                  · rw [if_pos hany] at hadd
                    simp at hadd
                  · rw [if_neg hany] at hadd
                    exact ((Prod.mk.injEq _ _ _ _).mp hadd).2.symm
                obtain rfl : lr = l2 := (Option.some.injEq _ _).mp hstep
                rw [hlr, length_insertSorted]
          by_cases hrn : resizeNeeded (addItemToIndex d k).1 (addItemToIndex d k).2 = true
          · rw [if_pos hrn]
            have hg : (growFuel fuel
                { data := some (addItemToIndex d k).1, list := some l2 } 0 true).isSome =
                true := by
              refine growFuel_isSome _ _ _ _ (fun _ => rfl) ?_
              have hml2 : mapLen ({ data := some (addItemToIndex d k).1, list := some l2 } :
                  HMap V) = l2.length := rfl
              have htar : growTarget ({ data := some (addItemToIndex d k).1, list := some l2 } : HMap V) 0 = d.slots.length * 2 := by
                unfold growTarget
                rw [if_pos rfl]
                simp [addItem_length]
              rw [hml2, htar]
              have hlpos : 1 ≤ d.slots.length := by
                have h2 := hgd.2
                rw [h2]
                exact Nat.one_le_two_pow
              have hb1 : l2.length * 100 / (d.slots.length * 2) ≤ l2.length * 100 / 2 :=
                Nat.div_le_div_left (by omega) (by norm_num)
              have hb2 : l2.length * 100 / 2 = l2.length * 50 := by
                have h3 : l2.length * 100 = l2.length * 50 * 2 := by ring
                rw [h3, Nat.mul_div_cancel _ (by norm_num)]
              omega
            cases hgf : growFuel fuel
                { data := some (addItemToIndex d k).1, list := some l2 } 0 true with
            | none =>
              rw [hgf] at hg
              simp at hg
            | some m3 => simp
          · rw [if_neg hrn]
            simp

theorem insertFuel_isSome :
    ∀ (fuel : Nat) (m : HMap V) (k : Nat) (v : V) (update : Bool),
      WFfull m → 100 * mapLen m + 152 ≤ fuel →
      (insertFuel fuel m k v update).isSome = true := by
  intro fuel m k v update hw hb
  by_cases hdsome : m.data.isSome = true
  · exact insertFuel_isSome_allocated fuel m k v update hw hdsome (by omega)
  · have hdata : m.data = none := by
      cases hd : m.data with
      | none => rfl
      | some d => rw [hd] at hdsome; simp at hdsome
    cases fuel with
    | zero => exact absurd hb (by omega)
    | succ fuel =>
      rw [insertFuel]
      split
      · cases hlist : m.list with
        | some l =>
          have h1 := hw.2.2.1
          rw [hdata, hlist] at h1
          simp at h1
        | none =>
          have hml0 : mapLen m = 0 := by
            unfold mapLen
            rw [entries_none hlist]
            rfl
          have hallo : allocate m DefaultSize =
              growFuel (defaultFuel m + 2) { m with list := some [] } DefaultSize false := by
            unfold allocate
            rw [hlist]
          rw [hallo]
          have hsome : (growFuel (defaultFuel m + 2) ({ m with list := some [] } : HMap V)
              DefaultSize false).isSome = true := by
            refine growFuel_isSome _ _ _ _ (fun hc => absurd hc (by simp [DefaultSize])) ?_
            have hz : mapLen ({ m with list := some [] } : HMap V) = 0 := rfl
            rw [hz]
            simp only [Nat.zero_mul, Nat.zero_div]
            unfold defaultFuel
            omega
          cases hgf : growFuel (defaultFuel m + 2) ({ m with list := some [] } : HMap V)
              DefaultSize false with
          | none =>
            rw [hgf] at hsome
            simp at hsome
          | some m1 =>
            have hml1 : ({ m with list := some [] } : HMap V).list = some [] := rfl
            have hspec := growFuel_spec _ _ _ _ _ hgf
              (by rw [entries_some hml1]; exact List.Pairwise.nil)
              (by rw [entries_some hml1]; intro e he; simp at he)
              (fun hc => absurd hc (by simp [DefaultSize]))
            obtain ⟨hlist1, d1, hd1, hgood1, _⟩ := hspec
            have hw1 : WFfull m1 := by
              refine ⟨?_, ?_, ?_, ?_⟩
              · rw [entries_some (hlist1.trans hml1)]
                exact List.Pairwise.nil
              · rw [entries_some (hlist1.trans hml1)]
                intro e he
                simp at he
              · rw [hd1, hlist1.trans hml1]
                rfl
              · rw [hd1]
                exact hgood1
            have hml1z : mapLen m1 = 0 := by
              unfold mapLen
              rw [entries_some (hlist1.trans hml1)]
              rfl
            exact insertFuel_isSome_allocated fuel m1 k v update hw1
              (by rw [hd1]; rfl) (by omega)
      · rename_i d hd2
        rw [hdata] at hd2
        simp at hd2

theorem set_isSome {m : HMap V} (k : Nat) (v : V) (hw : WFfull m) :
    (set m k v).isSome = true := by
  unfold set
  have := insertFuel_isSome (defaultFuel m + 8) m k v true hw (by unfold defaultFuel; omega)
  cases h : insertFuel (defaultFuel m + 8) m k v true with
  | none =>
    rw [h] at this
    simp at this
  | some r => simp

end TotalityLemmas

section CasLemmas

variable [DecidableEq V]

theorem listCas_false_id {l : List (Nat × V)} {k : Nat} {frm nv : V}
    (h : (listCas l k frm nv).1 = false) : (listCas l k frm nv).2 = l := by
  induction l with
  | nil => rfl
  | cons e rest ih =>
    by_cases h1 : e.1 = k
    · by_cases h2 : e.2 = frm
      · rw [listCas, if_pos h1, if_pos h2] at h
        simp at h
      · rw [listCas, if_pos h1, if_neg h2]
    · rw [listCas, if_neg h1] at h ⊢
      rw [ih h]

theorem listCas_true_iff {l : List (Nat × V)} (hs : sortedL l) (k : Nat) (frm nv : V) :
    (listCas l k frm nv).1 = true ↔ searchItem k l = some frm := by
  induction l with
  | nil => simp [listCas, searchItem]
  | cons e rest ih =>
    rcases List.pairwise_cons.mp hs with ⟨hall, hrest⟩
    by_cases h1 : e.1 = k
    · by_cases h2 : e.2 = frm
      · rw [listCas, if_pos h1, if_pos h2]
        simp [searchItem, h1, h2]
      · rw [listCas, if_pos h1, if_neg h2]
        simp [searchItem, h1, h2]
    · rw [listCas, if_neg h1]
      by_cases h2 : k < e.1
      · have hnone : searchItem k rest = none := by
          refine searchItem_none_of_not_mem ?_
          intro x hx
          have := hall x hx
          omega
        constructor
        · intro htrue
          have h3 : (listCas rest k frm nv).1 = true := htrue
          rw [ih hrest, hnone] at h3
          exact absurd h3 (by simp)
        · intro hsearch
          rw [searchItem, if_neg h1, if_pos h2] at hsearch
          exact absurd hsearch (by simp)
      · rw [searchItem, if_neg h1, if_neg h2]
        exact ih hrest

theorem casHashedKey_eq_none {m : HMap V} (hd : m.data = none) (k : Nat) (frm nv : V) :
    casHashedKey m k frm nv = (false, m) := by
  unfold casHashedKey indexElement
  rw [hd]

theorem casHashedKey_eq_some {m : HMap V} {d : TableData} {l : List (Nat × V)}
    (hd : m.data = some d) (hl : m.list = some l) (k : Nat) (frm nv : V) :
    casHashedKey m k frm nv =
      ((listCas l k frm nv).1, { m with list := some (listCas l k frm nv).2 }) := by
  unfold casHashedKey indexElement
  rw [hd, hl]

theorem casHashedKey_spec (m : HMap V) (k : Nat) (frm nv : V) (hw : WFfull m) :
    ((casHashedKey m k frm nv).1 = true ↔ searchItem k (entries m) = some frm) ∧
    ((casHashedKey m k frm nv).1 = false → casHashedKey m k frm nv = (false, m)) := by
  cases hdata : m.data with
  | none =>
    have hlist : m.list = none := by
      have h1 := hw.2.2.1
      rw [hdata] at h1
      cases hl : m.list with
      | none => rfl
      | some l => rw [hl] at h1; simp at h1
    rw [casHashedKey_eq_none hdata, entries_none hlist]
    constructor
    · simp [searchItem]
    · intro _
      rfl
  | some d =>
    cases hlist : m.list with
    | none =>
      have h1 := hw.2.2.1
      rw [hdata, hlist] at h1
      simp at h1
    | some l =>
      have hsl : sortedL l := by
        have := hw.1
        rwa [entries_some hlist] at this
      rw [casHashedKey_eq_some hdata hlist, entries_some hlist]
      constructor
      · exact listCas_true_iff hsl k frm nv
      · intro hfalse
        have hid := listCas_false_id hfalse
        rw [hfalse, hid]
        cases m with
        | mk md ml =>
          change ml = some l at hlist
          subst hlist
          rfl

theorem searchItem_traversal {m : HMap V} {d : TableData} (hd : m.data = some d)
    (hinv : InvFull m) (k : Nat) :
    searchItem k (startFrom (entries m) (slotAt d k)) = searchItem k (entries m) := by
  cases hres : searchItem k (entries m) with
  | some v =>
    have hmem := searchItem_eq_some hres
    have hsp := hinv.2 (k, v) hmem
    rw [hd] at hsp
    have hsp2 : optLE (slotAt d k) k := hsp
    obtain ⟨k0, hk0, hk0le⟩ := optLE_some hsp2
    show searchItem k (startFrom (entries m) (slotAt d k)) = some v
    rw [hk0]
    show searchItem k ((entries m).dropWhile (fun e => decide (e.1 < k0))) = some v
    rw [searchItem_dropWhile hinv.1.1 hk0le]
    exact hres
  | none =>
    cases htr : searchItem k (startFrom (entries m) (slotAt d k)) with
    | none => rfl
    | some v =>
      exfalso
      have hmem := mem_startFrom (searchItem_eq_some htr)
      have := searchItem_of_mem hinv.1.1 hmem
      rw [hres] at this
      simp at this

end CasLemmas

section GetOrAddLemmas

variable [DecidableEq V]

theorem getOrAddO_succ (fuel : Nat) (oracle : List Bool) (m : HMap V) (k : Nat) (v : V)
    (alloc : Bool) (allocs : Nat) :
    getOrAddO (fuel + 1) oracle m k v alloc allocs =
      match indexElement m k with
      | none =>
        match allocate m DefaultSize with
        | none => none
        | some m1 => getOrAddO fuel oracle m1 k v alloc allocs
      | some (_, tr) =>
        match searchItem k tr with
        | some w => some ((w, true), m, allocs)
        | none =>
          match oracle with
          | true :: rest =>
            getOrAddO fuel rest m k v true (if alloc then allocs else allocs + 1)
          | false :: rest =>
            match insertFuel (defaultFuel m + 8) m k v false with
            | none => none
            | some (true, m2) => some ((v, false), m2, if alloc then allocs else allocs + 1)
            | some (false, _) =>
              getOrAddO fuel rest m k v true (if alloc then allocs else allocs + 1)
          | [] =>
            match insertFuel (defaultFuel m + 8) m k v false with
            | none => none
            | some (true, m2) => some ((v, false), m2, if alloc then allocs else allocs + 1)
            | some (false, _) =>
              getOrAddO fuel [] m k v true (if alloc then allocs else allocs + 1) := rfl

theorem getOrAddO_allocs :
    ∀ (fuel : Nat) (oracle : List Bool) (m : HMap V) (k : Nat) (v : V) (alloc : Bool)
      (allocs : Nat) (res : (V × Bool) × HMap V × Nat),
      getOrAddO fuel oracle m k v alloc allocs = some res →
      res.2.2 ≤ allocs + (if alloc then 0 else 1) := by
  intro fuel
  induction fuel with
  | zero =>
    intro oracle m k v alloc allocs res h
    exact absurd h (by simp [getOrAddO])
  | succ fuel ih =>
    intro oracle m k v alloc allocs res h
    rw [getOrAddO_succ] at h
    split at h
    · split at h
      · exact absurd h (by simp)
      · exact ih oracle _ k v alloc allocs res h
    · split at h
      · obtain rfl : ((_, true), m, allocs) = res := (Option.some.injEq _ _).mp h
        simp
      · have hbound : ∀ (orc : List Bool) (res2 : (V × Bool) × HMap V × Nat),
            getOrAddO fuel orc m k v true
              (if alloc then allocs else allocs + 1) = some res2 →
            res2.2.2 ≤ allocs + (if alloc then 0 else 1) := by
          intro orc res2 h2
          have := ih orc _ k v true _ res2 h2
          by_cases ha : alloc <;> simp [ha] at this ⊢ <;> omega
        split at h
        · exact hbound _ _ h
        · split at h
          · exact absurd h (by simp)
          · obtain rfl : ((v, false), _, if alloc then allocs else allocs + 1) = res :=
              (Option.some.injEq _ _).mp h
            by_cases ha : alloc <;> simp [ha]
          · exact hbound _ _ h
        · split at h
          · exact absurd h (by simp)
          · obtain rfl : ((v, false), _, if alloc then allocs else allocs + 1) = res :=
              (Option.some.injEq _ _).mp h
            by_cases ha : alloc <;> simp [ha]
          · exact hbound _ _ h

theorem getOrAddO_behavior :
    ∀ (fuel : Nat) (oracle : List Bool) (m : HMap V) (k : Nat) (v : V) (alloc : Bool)
      (allocs : Nat) (res : (V × Bool) × HMap V × Nat),
      InvFull m → k < 2 ^ W →
      getOrAddO fuel oracle m k v alloc allocs = some res →
      (∃ w, searchItem k (entries m) = some w ∧ res = ((w, true), m, allocs)) ∨
      (searchItem k (entries m) = none ∧ res.1 = (v, false) ∧ get res.2.1 k = some v) := by
  intro fuel
  induction fuel with
  | zero =>
    intro oracle m k v alloc allocs res hinv hk h
    exact absurd h (by simp [getOrAddO])
  | succ fuel ih =>
    intro oracle m k v alloc allocs res hinv hk h
    rw [getOrAddO_succ] at h
    split at h
    · rename_i hidx
      have hdata : m.data = none := by
        cases hd : m.data with
        | none => rfl
        | some d =>
          unfold indexElement at hidx
          rw [hd] at hidx
          simp at hidx
      have hlist : m.list = none := by
        have h1 := hinv.1.2.2.1
        rw [hdata] at h1
        cases hl : m.list with
        | none => rfl
        | some l =>
          rw [hl] at h1
          simp at h1
      have hent : entries m = [] := entries_none hlist
      split at h
      · exact absurd h (by simp)
      · rename_i m1 hm1
        have hallo : allocate m DefaultSize =
            growFuel (defaultFuel m + 2) ({ m with list := some [] } : HMap V)
              DefaultSize false := by
          unfold allocate
          rw [hlist]
        rw [hallo] at hm1
        have hml1 : ({ m with list := some [] } : HMap V).list = some [] := rfl
        have hspec := growFuel_spec _ _ _ _ _ hm1
          (by rw [entries_some hml1]; exact List.Pairwise.nil)
          (by rw [entries_some hml1]; intro e he; simp at he)
          (fun hc => absurd hc (by simp [DefaultSize]))
        obtain ⟨hlist1, d1, hd1, hgood1, _⟩ := hspec
        have hw1 : WFfull m1 := by
          refine ⟨?_, ?_, ?_, ?_⟩
          · rw [entries_some (hlist1.trans hml1)]
            exact List.Pairwise.nil
          · rw [entries_some (hlist1.trans hml1)]
            intro e he
            simp at he
          · rw [hd1, hlist1.trans hml1]
            rfl
          · rw [hd1]
            exact hgood1
        have hinv1 : InvFull m1 := by
          refine ⟨hw1, ?_⟩
          intro e he
          rw [entries_some (hlist1.trans hml1)] at he
          simp at he
        have := ih oracle m1 k v alloc allocs res hinv1 hk h
        rcases this with ⟨w, hsw, _⟩ | ⟨_, hres1, hres2⟩
        · rw [entries_some (hlist1.trans hml1)] at hsw
          simp [searchItem] at hsw
        · right
          refine ⟨?_, hres1, hres2⟩
          rw [hent]
          rfl
    · rename_i d tr hidx
      obtain ⟨d0, hd0⟩ : ∃ d0, m.data = some d0 := by
        cases hd : m.data with
        | none =>
          unfold indexElement at hidx
          rw [hd] at hidx
          simp at hidx
        | some d0 => exact ⟨d0, rfl⟩
      have hidx2 : indexElement m k = some (d0, startFrom (entries m) (slotAt d0 k)) := by
        unfold indexElement
        rw [hd0]
      rw [hidx2] at hidx
      have hpair := (Option.some.injEq _ _).mp hidx
      have htr : tr = startFrom (entries m) (slotAt d0 k) :=
        ((Prod.mk.injEq _ _ _ _).mp hpair).2.symm
      have htrav : searchItem k tr = searchItem k (entries m) := by
        rw [htr]
        exact searchItem_traversal hd0 hinv k
      split at h
      · rename_i w hw
        left
        refine ⟨w, ?_, ?_⟩
        · rw [← htrav]
          exact hw
        · exact ((Option.some.injEq _ _).mp h).symm
      · rename_i hnone
        have hsnone : searchItem k (entries m) = none := by
          rw [← htrav]
          exact hnone
        have hrec : ∀ (orc : List Bool) (al : Bool) (ac : Nat),
            getOrAddO fuel orc m k v al ac = some res →
            (∃ w, searchItem k (entries m) = some w ∧ res = ((w, true), m, ac)) ∨
            (searchItem k (entries m) = none ∧ res.1 = (v, false) ∧
              get res.2.1 k = some v) := by
          intro orc al ac h2
          exact ih orc m k v al ac res hinv hk h2
        have hstep : ∀ (orc : List Bool) (al : Bool) (ac : Nat),
            getOrAddO fuel orc m k v al ac = some res →
            searchItem k (entries m) = none ∧ res.1 = (v, false) ∧
              get res.2.1 k = some v := by
          intro orc al ac h2
          rcases hrec orc al ac h2 with ⟨w, hsw, _⟩ | hright
          · rw [hsnone] at hsw
            simp at hsw
          · exact hright
        split at h
        · right
          exact hstep _ _ _ h
        · split at h
          · exact absurd h (by simp)
          · rename_i m2 hm2
            have hres := ((Option.some.injEq _ _).mp h).symm
            right
            refine ⟨hsnone, ?_, ?_⟩
            · rw [hres]
            · rw [hres]
              exact insertFuel_get _ m k v false m2 hm2 hinv.1 hk
          · right
            exact hstep _ _ _ h
        · split at h
          · exact absurd h (by simp)
          · rename_i m2 hm2
            have hres := ((Option.some.injEq _ _).mp h).symm
            right
            refine ⟨hsnone, ?_, ?_⟩
            · rw [hres]
            · rw [hres]
              exact insertFuel_get _ m k v false m2 hm2 hinv.1 hk
          · right
            exact hstep _ _ _ h

end GetOrAddLemmas

section FullTotalityLemmas

theorem any_false_of_searchItem_none {l : List (Nat × V)} (hs : sortedL l) {k : Nat}
    (h : searchItem k l = none) : l.any (fun e => e.1 == k) = false := by
  cases hres : l.any (fun e => e.1 == k) with
  | false => rfl
  | true =>
    exfalso
    obtain ⟨e, he, hek⟩ := List.any_eq_true.mp hres
    have hek2 : e.1 = k := by simpa using hek
    have heta : (k, e.2) = e := by rw [← hek2]
    have hmem : (k, e.2) ∈ l := heta ▸ he
    have := searchItem_of_mem hs hmem
    rw [h] at this
    simp at this

theorem insertFuel_false_existed :
    ∀ (fuel : Nat) (m : HMap V) (l : List (Nat × V)) (k : Nat) (v : V) (mr : HMap V),
      m.data.isSome = true → m.list = some l →
      insertFuel fuel m k v false = some (false, mr) →
      l.any (fun e => e.1 == k) = true := by
  intro fuel
  cases fuel with
  | zero =>
    intro m l k v mr hd hl h
    exact absurd h (by simp [insertFuel])
  | succ fuel =>
    intro m l k v mr hd hl h
    rw [insertFuel] at h
    split at h
    · rename_i hdata
      rw [hdata] at hd
      simp at hd
    · split at h
      · rename_i hlist
        rw [hlist] at hl
        simp at hl
      · rename_i l2 hlist
        obtain rfl : l = l2 := (Option.some.injEq _ _).mp (hl.symm.trans hlist)
        split at h
        · rename_i hstep
          rw [if_neg (Bool.false_ne_true)] at hstep
          rcases hadd : listAdd l k v with ⟨fst, lr⟩
          rw [hadd] at hstep
          cases fst with
          | false => simp at hstep
          | true =>
            unfold listAdd at hadd
            by_cases hany : l.any (fun e => e.1 == k) = true
            · exact hany
            · rw [if_neg hany] at hadd
              exact absurd ((Prod.mk.injEq _ _ _ _).mp hadd).1 (by simp)
        · split at h
          · split at h
            · exact absurd h (by simp)
            · have := ((Prod.mk.injEq _ _ _ _).mp ((Option.some.injEq _ _).mp h)).1
              simp at this
          · have := ((Prod.mk.injEq _ _ _ _).mp ((Option.some.injEq _ _).mp h)).1
            simp at this

theorem insert_isSome {m : HMap V} (k : Nat) (v : V) (hw : WFfull m) :
    (insert m k v).isSome = true := by
  unfold insert
  exact insertFuel_isSome (defaultFuel m + 8) m k v false hw (by unfold defaultFuel; omega)

theorem growPublic_isSome (m : HMap V) (n : Nat) (hn : n = 0 → m.data.isSome = true) :
    (growPublic m n).isSome = true := by
  unfold growPublic
  refine growFuel_isSome _ _ _ _ hn ?_
  have h1 : mapLen m * 100 / growTarget m n ≤ mapLen m * 100 := Nat.div_le_self _ _
  unfold defaultFuel
  omega

theorem getOrAddO_isSome_allocated [DecidableEq V] :
    ∀ (fuel : Nat) (m : HMap V) (k : Nat) (v : V) (alloc : Bool) (allocs : Nat),
      InvFull m → m.data.isSome = true →
      (getOrAddO (fuel + 1) [] m k v alloc allocs).isSome = true := by
  intro fuel m k v alloc allocs hinv hd
  rw [getOrAddO_succ]
  split
  · rename_i hidx
    exfalso
    cases hdat : m.data with
    | none =>
      rw [hdat] at hd
      simp at hd
    | some d =>
      unfold indexElement at hidx
      rw [hdat] at hidx
      simp at hidx
  · rename_i d tr hidx
    split
    · simp
    · rename_i hnone
      obtain ⟨d0, hd0⟩ : ∃ d0, m.data = some d0 := by
        cases hdat : m.data with
        | none =>
          rw [hdat] at hd
          simp at hd
        | some d0 => exact ⟨d0, rfl⟩
      have hidx2 : indexElement m k = some (d0, startFrom (entries m) (slotAt d0 k)) := by
        unfold indexElement
        rw [hd0]
      rw [hidx2] at hidx
      have htr : tr = startFrom (entries m) (slotAt d0 k) :=
        ((Prod.mk.injEq _ _ _ _).mp ((Option.some.injEq _ _).mp hidx)).2.symm
      have hsnone : searchItem k (entries m) = none := by
        rw [← searchItem_traversal hd0 hinv k, ← htr]
        exact hnone
      obtain ⟨l, hl⟩ : ∃ l, m.list = some l := by
        have h1 := hinv.1.2.2.1
        rw [hd0] at h1
        cases hls : m.list with
        | none =>
          rw [hls] at h1
          simp at h1
        | some l => exact ⟨l, rfl⟩
      have hins := insertFuel_isSome (defaultFuel m + 8) m k v false hinv.1
        (by unfold defaultFuel; omega)
      cases hres : insertFuel (defaultFuel m + 8) m k v false with
      | none =>
        rw [hres] at hins
        simp at hins
      | some r =>
        obtain ⟨b, m2⟩ := r
        cases b with
        | false =>
          exfalso
          have hany := insertFuel_false_existed (defaultFuel m + 8) m l k v m2
            (by rw [hd0]; rfl) hl hres
          have hsl : sortedL l := by
            have := hinv.1.1
            rwa [entries_some hl] at this
          have := any_false_of_searchItem_none hsl (by rwa [entries_some hl] at hsnone)
          rw [hany] at this
          simp at this
        | true => rfl

theorem getOrAddO_nil_isSome [DecidableEq V] :
    ∀ (fuel : Nat) (m : HMap V) (k : Nat) (v : V) (alloc : Bool) (allocs : Nat),
      InvFull m → (getOrAddO (fuel + 2) [] m k v alloc allocs).isSome = true := by
  intro fuel m k v alloc allocs hinv
  by_cases hd : m.data.isSome = true
  · exact getOrAddO_isSome_allocated (fuel + 1) m k v alloc allocs hinv hd
  · have hdata : m.data = none := by
      cases hdat : m.data with
      | none => rfl
      | some d =>
        rw [hdat] at hd
        simp at hd
    have hlist : m.list = none := by
      have h1 := hinv.1.2.2.1
      rw [hdata] at h1
      cases hls : m.list with
      | none => rfl
      | some l =>
        rw [hls] at h1
        simp at h1
    rw [getOrAddO_succ]
    split
    · have hallo : allocate m DefaultSize =
          growFuel (defaultFuel m + 2) ({ m with list := some [] } : HMap V)
            DefaultSize false := by
        unfold allocate
        rw [hlist]
      rw [hallo]
      have hsome : (growFuel (defaultFuel m + 2) ({ m with list := some [] } : HMap V)
          DefaultSize false).isSome = true := by
        refine growFuel_isSome _ _ _ _ (fun hc => absurd hc (by simp [DefaultSize])) ?_
        have hz : mapLen ({ m with list := some [] } : HMap V) = 0 := rfl
        rw [hz]
        simp only [Nat.zero_mul, Nat.zero_div]
        unfold defaultFuel
        omega
      cases hgf : growFuel (defaultFuel m + 2) ({ m with list := some [] } : HMap V)
          DefaultSize false with
      | none =>
        rw [hgf] at hsome
        simp at hsome
      | some m1 =>
        have hml1 : ({ m with list := some [] } : HMap V).list = some [] := rfl
        have hspec := growFuel_spec _ _ _ _ _ hgf
          (by rw [entries_some hml1]; exact List.Pairwise.nil)
          (by rw [entries_some hml1]; intro e he; simp at he)
          (fun hc => absurd hc (by simp [DefaultSize]))
        obtain ⟨hlist1, d1, hd1, hgood1, _⟩ := hspec
        have hw1 : WFfull m1 := by
          refine ⟨?_, ?_, ?_, ?_⟩
          · rw [entries_some (hlist1.trans hml1)]
            exact List.Pairwise.nil
          · rw [entries_some (hlist1.trans hml1)]
            intro e he
            simp at he
          · rw [hd1, hlist1.trans hml1]
            rfl
          · rw [hd1]
            exact hgood1
        have hinv1 : InvFull m1 := by
          refine ⟨hw1, ?_⟩
          intro e he
          rw [entries_some (hlist1.trans hml1)] at he
          simp at he
        exact getOrAddO_isSome_allocated fuel m1 k v alloc allocs hinv1 (by rw [hd1]; rfl)
    · rename_i d tr hidx
      unfold indexElement at hidx
      rw [hdata] at hidx
      simp at hidx

theorem getOrAdd_isSome [DecidableEq V] {m : HMap V} (k : Nat) (v : V) (hinv : InvFull m) :
    (getOrAdd m k v).isSome = true := by
  unfold getOrAdd
  have h8 : defaultFuel m + 8 = (defaultFuel m + 6) + 2 := rfl
  rw [h8]
  exact getOrAddO_nil_isSome (defaultFuel m + 6) m k v false 0 hinv

end FullTotalityLemmas

section GrowStepEquations

theorem growFuel_succ_nonloop (m : HMap V) {ns : Nat} (hns : ns ≠ 0) (fuel : Nat) :
    growFuel (fuel + 1) m ns false =
      some { m with data := some (growStep m (roundUpPower2 ns)) } := by
  rw [growFuel, if_neg hns]
  rfl

theorem growFuel_succ_double (m : HMap V) {d : TableData} (hd : m.data = some d)
    (fuel : Nat) :
    growFuel (fuel + 1) m 0 false =
      some { m with data := some (growStep m (d.slots.length * 2)) } := by
  rw [growFuel, if_pos rfl, hd]
  rfl

end GrowStepEquations

section Claims

/-- C1: the bucket contract (every non-null index slot points to a live
entry of its own bucket that is the smallest-keyed live entry there) is
claimed to be preserved by every operation; the code breaks it.  Starting
from a fresh map, Set(0, 10) and Set(2^63, 20) reach `mPair`, where the
contract holds; Del(0) then leaves bucket 0's slot pointing at the key
2^63 entry, which lives in bucket 4: `deleteElement` compares
`element.key>>keyshifts` with the just-computed `index` (always equal)
instead of the successor's bucket, so the slot is CASed to a
foreign-bucket successor instead of nil. -/
theorem c1_bucket_contract_broken_by_del :
    scenPair = some mPair ∧ bucketContract mPair ∧ ¬ bucketContract (del mPair 0) :=
  ⟨by decide, by decide, by decide⟩

/-- C2: the claim says Del's index-unlink CASes the slot to the successor
only when the successor shares the bucket, and to nil otherwise.  In the
code the guard `element.key>>data.keyshifts != index` compares the deleted
entry's own bucket with itself, so it never fires: deleting key 0 from
`mPair` CASes bucket 0's slot to the successor with key 2^63, whose bucket
is 4, not to nil as claimed. -/
theorem c2_unlink_cas_to_foreign_bucket :
    scenPair = some mPair ∧
    successorKey (entries mPair) 0 = some (2 ^ 63) ∧
    (del mPair 0).data.map (fun d => d.slots.getD 0 none) = some (some (2 ^ 63)) ∧
    (2 ^ 63) >>> 61 = 4 ∧ (0 : Nat) >>> 61 = 0 :=
  ⟨by decide, by decide, by decide, by decide, by decide⟩

/-- C3 counterexample: inserting M = 50 distinct keys (0..49, M much
larger than the default 8 buckets) into a fresh map leaves the table at 8
buckets — not at least 2M = 100 — although every key is retrievable: the
keys share index slots, the inserted counter stays at 1, and no resize is
ever triggered. -/
theorem c3_no_table_growth :
    (scen50.bind (fun m => m.data)).map (fun d => d.slots.length) = some 8 ∧
    scen50.map (fun m => (List.range 50).all (fun i => get m i == some i)) = some true ∧
    ¬ ((8 : Nat) ≥ 2 * 50) :=
  ⟨by decide, by decide, by decide⟩

/-- C3 amended: after inserting M distinct keys into a fresh map every
key is retrievable, but no bucket-count lower bound of 2M holds: the
resize trigger compares the count of filled index slots (incremented by
`addItemToIndex` only when a slot goes from empty to occupied) against
the bucket count, so keys that share buckets never trigger a resize —
with keys 0..49 the table stays at 8 buckets with one filled slot. -/
theorem c3_resize_trigger_amended :
    (∀ (d : TableData) (k : Nat), (addItemToIndex d k).2 ≠ 0 →
      d.slots.getD (k >>> d.keyshifts) none = none ∧
        (addItemToIndex d k).2 = d.count + 1) ∧
    (scen50.bind (fun m => m.data)).map (fun d => (d.slots.length, d.count)) = some (8, 1) ∧
    scen50.map (fun m => (List.range 50).all (fun i => get m i == some i)) = some true := by
  refine ⟨?_, by decide, by decide⟩
  intro d k hne
  unfold addItemToIndex at hne ⊢
  cases h : d.slots.getD (k >>> d.keyshifts) none with
  | none => simp
  | some k0 =>
    rw [h] at hne
    by_cases hlt : k < k0
    · simp [hlt] at hne
    · simp [hlt] at hne

/-- C3 amended witness: the trigger characterisation at a concrete empty
slot. -/
theorem c3_resize_trigger_amended_witness :
    (⟨61, 0, [none]⟩ : TableData).slots.getD (0 >>> (61 : Nat)) none = none ∧
    (addItemToIndex ⟨61, 0, [none]⟩ 0).2 = (⟨61, 0, [none]⟩ : TableData).count + 1 := by
  have h : (addItemToIndex (⟨61, 0, [none]⟩ : TableData) 0).2 ≠ 0 := by decide
  have := c3_resize_trigger_amended.1 ⟨61, 0, [none]⟩ 0 h
  exact ⟨this.1, this.2⟩

/-- C4: round-trip in a single-threaded execution on a well-formed map
with a machine-word key: Set(k, v) then Get(k) returns (v, true), and
Delete(k) then Get(k) returns (_, false) — the latter for every map state
whatsoever. -/
theorem c4_round_trip :
    (∀ (m mr : HMap V) (k : Nat) (v : V), WFfull m → k < 2 ^ W →
      set m k v = some mr → get mr k = some v) ∧
    ∀ (m : HMap V) (k : Nat), get (del m k) k = none :=
  ⟨fun _ _ _ _ hw hk hset => set_get hw hk hset, fun m k => get_del_same m k⟩

/-- C4 witness: Set(3, 7) on a fresh map then Get 3, and Delete then Get
on key 5. -/
theorem c4_round_trip_witness :
    get mW 3 = some 7 ∧ get (del (emptyMap : HMap Nat) 5) 5 = none :=
  ⟨c4_round_trip.1 emptyMap mW 3 7 (by decide) (by decide) (by decide),
   c4_round_trip.2 emptyMap 5⟩

/-- C5: Cas(k, from, to) returns true iff a live entry with key k exists
whose current value equals `from` (the value-slot CAS always succeeds
sequentially); when it returns false — in particular whenever k is
absent — the map is left unchanged, nothing is inserted. -/
theorem c5_cas_iff [DecidableEq V] :
    ∀ (m : HMap V) (k : Nat) (frm nv : V), WFfull m →
      (((casHashedKey m k frm nv).1 = true) ↔ searchItem k (entries m) = some frm) ∧
      ((casHashedKey m k frm nv).1 = false → casHashedKey m k frm nv = (false, m)) :=
  fun m k frm nv hw => casHashedKey_spec m k frm nv hw

/-- C5 witness: Cas on the one-entry map `mW` (key 3, value 7). -/
theorem c5_cas_iff_witness :
    (((casHashedKey mW 3 7 9).1 = true) ↔ searchItem 3 (entries mW) = some 7) ∧
    ((casHashedKey mW 3 7 9).1 = false → casHashedKey mW 3 7 9 = (false, mW)) :=
  c5_cas_iff mW 3 7 9 (by decide)

/-- C6 counterexample: three public operations dereference the nil
`datamap` of a zero-value map: Grow(0) reads `len(data.index)`, New(0)
runs the same `grow(0, ...)` path, and FillRate reads `data.count` —
each with no nil check, so not every public operation is total as
claimed (the model returns `none` for the panic). -/
theorem c6_grow_zero_nil_deref :
    growPublic (emptyMap : HMap Nat) 0 = none ∧ (newMap 0 : Option (HMap Nat)) = none ∧
    fillRate (emptyMap : HMap Nat) = none :=
  ⟨by decide, by decide, rfl⟩

/-- C6 amended: every public operation is total except that Grow(0),
New(0) and FillRate dereference the nil `datamap` and crash when the
index table is not yet allocated.  Grow(n) completes on every map unless
n = 0 with an unallocated table; New(s) completes for every s at least
1; FillRate returns count and bucket count whenever the table is
allocated; Set and Insert complete on every well-formed map (allocating
on demand); GetOrInsert completes on every map satisfying the
reachability invariant.  Get, Len, Del, DelHashedKey, Cas and the Iter
walk are nil-guarded in the source and are plain total functions of the
model by construction. -/
theorem c6_totality_amended :
    (∀ s : Nat, 1 ≤ s → (newMap s : Option (HMap Nat)).isSome = true) ∧
    (∀ (m : HMap Nat) (n : Nat), (n = 0 → m.data.isSome = true) →
      (growPublic m n).isSome = true) ∧
    (∀ (m : HMap Nat) (d : TableData), m.data = some d →
      fillRate m = some (d.count, d.slots.length)) ∧
    (∀ (m : HMap Nat) (k v : Nat), WFfull m →
      (set m k v).isSome = true ∧ (insert m k v).isSome = true) ∧
    (∀ (m : HMap Nat) (k v : Nat), InvFull m → (getOrAdd m k v).isSome = true) := by
  refine ⟨?_, fun m n hn => growPublic_isSome m n hn, ?_,
    fun m k v hw => ⟨set_isSome k v hw, insert_isSome k v hw⟩,
    fun m k v hinv => getOrAdd_isSome k v hinv⟩
  · intro s hs
    show (growFuel (defaultFuel (emptyMap : HMap Nat) + 2)
      ({ emptyMap with list := some [] } : HMap Nat) s false).isSome = true
    refine growFuel_isSome _ _ _ _ (fun hc => absurd hc (by omega)) ?_
    show (0 : Nat) * 100 / growTarget ({ emptyMap with list := some [] } : HMap Nat) s <
      defaultFuel (emptyMap : HMap Nat) + 2
    simp only [Nat.zero_mul, Nat.zero_div]
    omega
  · intro m d hd
    unfold fillRate
    rw [hd]

/-- C6 amended witness: New(8), Grow(63) on a fresh map, FillRate after
one Set, Set and Insert on a fresh map, and GetOrAdd on a fresh map all
succeed. -/
theorem c6_totality_amended_witness :
    (newMap 8 : Option (HMap Nat)).isSome = true ∧
    (growPublic (emptyMap : HMap Nat) 63).isSome = true ∧
    fillRate mW = some (dW.count, dW.slots.length) ∧
    (set (emptyMap : HMap Nat) 1 2).isSome = true ∧
    (insert (emptyMap : HMap Nat) 1 2).isSome = true ∧
    (getOrAdd (emptyMap : HMap Nat) 2 9).isSome = true :=
  ⟨c6_totality_amended.1 8 (by decide),
   c6_totality_amended.2.1 emptyMap 63 (fun hc => absurd hc (by decide)),
   c6_totality_amended.2.2.1 mW dW rfl,
   (c6_totality_amended.2.2.2.1 emptyMap 1 2 (by decide)).1,
   (c6_totality_amended.2.2.2.1 emptyMap 1 2 (by decide)).2,
   c6_totality_amended.2.2.2.2 emptyMap 2 9 (by decide)⟩

/-- C7 counterexample: New(2) allocates exactly 2 buckets — the repository
test TestResize relies on this (FillRate 1/2) — so the index-table length
is not "never smaller than the default bucket count of 8" as claimed. -/
theorem c7_new_no_minimum :
    ((newMap 2 : Option (HMap Nat)).bind (fun m => m.data)).map
      (fun d => d.slots.length) = some 2 ∧
    ¬ ((2 : Nat) ≥ DefaultSize) :=
  ⟨by decide, by decide⟩

/-- C7 amended: New(size) allocates exactly roundUpPower2(size) buckets —
a power of two for size at least 1 — with no minimum of 8 (DefaultSize
applies only to the lazy allocation performed by the first insert on a
nil table), and New(0) crashes on the nil table instead of allocating. -/
theorem c7_new_rounds_up_amended :
    (∀ s : Nat, 1 ≤ s →
      ((newMap s : Option (HMap Nat)).bind (fun m => m.data)).map
        (fun d => d.slots.length) = some (roundUpPower2 s) ∧
      ∃ j, roundUpPower2 s = 2 ^ j) ∧
    (newMap 0 : Option (HMap Nat)) = none := by
  refine ⟨?_, by decide⟩
  intro s hs
  constructor
  · have h0 : (newMap s : Option (HMap Nat)) =
        some { data := some (growStep (⟨none, some []⟩ : HMap Nat) (roundUpPower2 s)),
               list := some [] } :=
      growFuel_succ_nonloop (⟨none, some []⟩ : HMap Nat) (show s ≠ 0 by omega) 201
    rw [h0]
    simp [growStep_length]
  · rw [roundUpPower2, if_neg (show ¬ s = 0 by omega)]
    exact ⟨log2 s, rfl⟩

/-- C7 amended witness: New(2) at s = 2. -/
theorem c7_new_rounds_up_amended_witness :
    ((newMap 2 : Option (HMap Nat)).bind (fun m => m.data)).map
      (fun d => d.slots.length) = some (roundUpPower2 2) ∧
    ∃ j, roundUpPower2 2 = 2 ^ j :=
  c7_new_rounds_up_amended.1 2 (by decide)

/-- C8: grow shape.  A grow iteration with n = 0 allocates double the
current bucket count and with n nonzero allocates the next power of two;
every table a completed grow publishes satisfies
`keyshifts = W - log2(length)` with the length a power of two; and
Grow(63) on an empty map yields 64 buckets with shift W - 6 = 58, the
value the repository test TestGrow asserts. -/
theorem c8_grow_shape :
    (∀ (m : HMap Nat) (d : TableData) (fuel : Nat), m.data = some d →
      growFuel (fuel + 1) m 0 false =
        some { m with data := some (growStep m (d.slots.length * 2)) }) ∧
    (∀ (m : HMap Nat) (ns : Nat) (fuel : Nat), ns ≠ 0 →
      growFuel (fuel + 1) m ns false =
        some { m with data := some (growStep m (roundUpPower2 ns)) }) ∧
    (∀ (fuel : Nat) (m mr : HMap Nat) (ns : Nat) (loop : Bool),
      growFuel fuel m ns loop = some mr →
      sortedL (entries m) → boundedL (entries m) →
      (ns = 0 → ∃ d, m.data = some d ∧ goodTable d) →
      ∃ dr, mr.data = some dr ∧ dr.keyshifts = W - log2 dr.slots.length ∧
        ∃ j, dr.slots.length = 2 ^ j) ∧
    ((growPublic (emptyMap : HMap Nat) 63).bind (fun m => m.data)).map
      (fun d => (d.keyshifts, d.slots.length)) = some (W - 6, 64) := by
  refine ⟨fun m d fuel hd => growFuel_succ_double m hd fuel,
    fun m ns fuel hns => growFuel_succ_nonloop m hns fuel, ?_, by decide⟩
  intro fuel m mr ns loop h hs hb hns
  obtain ⟨_, dr, hdr, hgood, _⟩ := growFuel_spec fuel m ns loop mr h hs hb hns
  exact ⟨dr, hdr, hgood.1, log2 dr.slots.length, hgood.2⟩

/-- C8 witness: doubling on `mW` (8 to 16 buckets), rounding 63 up on a
fresh map, and the shape of the table Grow(63) publishes. -/
theorem c8_grow_shape_witness :
    growFuel 1 mW 0 false = some { mW with data := some (growStep mW (dW.slots.length * 2)) } ∧
    growFuel 1 (emptyMap : HMap Nat) 63 false =
      some { (emptyMap : HMap Nat) with
        data := some (growStep (emptyMap : HMap Nat) (roundUpPower2 63)) } ∧
    ∃ dr, mGrow63.data = some dr ∧ dr.keyshifts = W - log2 dr.slots.length ∧
      ∃ j, dr.slots.length = 2 ^ j :=
  ⟨c8_grow_shape.1 mW dW 0 rfl, c8_grow_shape.2.1 emptyMap 63 0 (by decide),
   c8_grow_shape.2.2.1 1 emptyMap mGrow63 63 false (by decide) (by decide) (by decide)
     (fun hc => absurd hc (by decide))⟩

/-- C9: GetOrAdd constructs the new list entry at most once across all
restarts of its retry loop (for every interference oracle), returns the
existing value with loaded = true when a live entry with key k is found,
and otherwise stores v and returns it with loaded = false. -/
theorem c9_get_or_add_once [DecidableEq V] :
    ∀ (fuel : Nat) (oracle : List Bool) (m : HMap V) (k : Nat) (v : V)
      (res : (V × Bool) × HMap V × Nat),
      InvFull m → k < 2 ^ W →
      getOrAddO fuel oracle m k v false 0 = some res →
      res.2.2 ≤ 1 ∧
      ((∃ w, searchItem k (entries m) = some w ∧ res = ((w, true), m, 0)) ∨
        (searchItem k (entries m) = none ∧ res.1 = (v, false) ∧
          get res.2.1 k = some v)) := by
  intro fuel oracle m k v res hinv hk h
  constructor
  · have := getOrAddO_allocs fuel oracle m k v false 0 res h
    simpa using this
  · exact getOrAddO_behavior fuel oracle m k v false 0 res hinv hk h

/-- C9 witness: GetOrAdd(2, 9) on a fresh map allocates once and stores
9. -/
theorem c9_get_or_add_once_witness :
    ((9, false), mGA, 1).2.2 ≤ 1 ∧
    ((∃ w, searchItem 2 (entries (emptyMap : HMap Nat)) = some w ∧
        (((9 : Nat), false), mGA, 1) = ((w, true), emptyMap, 0)) ∨
      (searchItem 2 (entries (emptyMap : HMap Nat)) = none ∧
        (((9 : Nat), false), mGA, (1 : Nat)).1 = (9, false) ∧
        get (((9 : Nat), false), mGA, (1 : Nat)).2.1 2 = some 9)) :=
  c9_get_or_add_once (defaultFuel (emptyMap : HMap Nat) + 8) [] emptyMap 2 9
    ((9, false), mGA, 1) (by decide) (by decide) (by decide)

/-- C10: on a zero-value map handle (nil index table and nil list), Get
returns (nil, false) for every key, and Del and DelHashedKey return
immediately with the state — hence also the absence of any allocation —
unchanged. -/
theorem c10_zero_value_safety :
    ∀ (k : Nat), get (emptyMap : HMap V) k = none ∧
      del (emptyMap : HMap V) k = emptyMap ∧
      delHashedKey (emptyMap : HMap V) k = emptyMap :=
  fun _ => ⟨rfl, rfl, rfl⟩

end Claims

end FastIntMap
